import Mathlib

/-!
Verification of the Luau `BytecodeBuilder` (Compiler/src/BytecodeBuilder.cpp)
against its natural-language specification.

The C++ code is shallowly embedded: 32-bit instruction words are `Nat`
values (reduced mod 2^32 where overflow matters), C `int` values are `Int`
with explicit two's-complement wrapping (`wrap32`) at the operations where
the C code can overflow, byte strings are `List Nat` of byte values, and
the builder's hash maps are association lists in insertion order.

Constants that live in headers not present in this source tree
(`Bytecode.h`, `BytecodeUtils.h`) are modelled from the spec and marked as
such in their doc comments; no theorem below depends on their exact values,
only on their distinctness and on the operand-field layout that
`BytecodeBuilder.cpp` itself exhibits in `emitABC`/`emitAD`/`emitE`.
-/

set_option maxRecDepth 4000

namespace LuauBB

/-! ### Machine-integer helpers -/

/-- Two's-complement interpretation of the low 32 bits of an integer,
used wherever the C code computes with `int`. -/
def wrap32 (x : Int) : Int :=
  (x + 2147483648) % 4294967296 - 2147483648

/-- Low 16 bits of an integer, as the `uint16_t` cast in C. -/
def u16 (x : Int) : Nat :=
  (x % 65536).toNat

/-- Low 8 bits of an integer, as the `uint8_t` cast in C. -/
def u8 (x : Int) : Nat :=
  (x % 256).toNat

/-- `int16_t(x) == x` for a C `int` value `x`. -/
def int16Fits (x : Int) : Bool :=
  -32768 ≤ x && x < 32768

/-- `uint8_t(x) == x` for a C `int` value `x` (used by `patchSkipC`). -/
def uint8Fits (x : Int) : Bool :=
  0 ≤ x && x < 256

/-! ### Instruction word fields

The word layout is taken from `emitABC`/`emitAD`/`emitE` in
`BytecodeBuilder.cpp`: opcode in bits 0-7, A in bits 8-15, B in 16-23,
C in 24-31, D is the signed 16-bit field in bits 16-31, E the signed
24-bit field in bits 8-31. -/

def LUAU_INSN_OP (insn : Nat) : Nat := insn % 256

def LUAU_INSN_A (insn : Nat) : Nat := insn / 256 % 256

def LUAU_INSN_B (insn : Nat) : Nat := insn / 65536 % 256

def LUAU_INSN_C (insn : Nat) : Nat := insn / 16777216 % 256

/-- The signed 16-bit D field (`int32_t(insn) >> 16`). -/
def LUAU_INSN_D (insn : Nat) : Int :=
  if insn / 65536 % 65536 < 32768 then ((insn / 65536 % 65536 : Nat) : Int)
  else ((insn / 65536 % 65536 : Nat) : Int) - 65536

/-- The signed 24-bit E field (`int32_t(insn) >> 8`). -/
def LUAU_INSN_E (insn : Nat) : Int :=
  if insn / 256 % 16777216 < 8388608 then ((insn / 256 % 16777216 : Nat) : Int)
  else ((insn / 256 % 16777216 : Nat) : Int) - 16777216

/-! ### Opcodes

Modelled from the spec: the opcode enumeration lives in `Bytecode.h`,
which is not part of this source tree; §3 of the spec fixes the word
layout and `BytecodeBuilder.cpp` fixes which opcodes are D-field jumps
(`isJumpD`).  The numeric values below are only required to be distinct
bytes; no theorem depends on the particular values chosen. -/

def LOP_NOP : Nat := 0
def LOP_LOADNIL : Nat := 2
def LOP_LOADB : Nat := 3
def LOP_RETURN : Nat := 22
def LOP_JUMP : Nat := 23
def LOP_JUMPBACK : Nat := 24
def LOP_JUMPIF : Nat := 25
def LOP_JUMPIFNOT : Nat := 26
def LOP_JUMPIFEQ : Nat := 27
def LOP_JUMPIFLE : Nat := 28
def LOP_JUMPIFLT : Nat := 29
def LOP_JUMPIFNOTEQ : Nat := 30
def LOP_JUMPIFNOTLE : Nat := 31
def LOP_JUMPIFNOTLT : Nat := 32
def LOP_GETGLOBAL : Nat := 7
def LOP_SETGLOBAL : Nat := 8
def LOP_GETIMPORT : Nat := 12
def LOP_GETTABLEKS : Nat := 15
def LOP_SETTABLEKS : Nat := 16
def LOP_NAMECALL : Nat := 20
def LOP_NEWTABLE : Nat := 53
def LOP_SETLIST : Nat := 55
def LOP_FORNPREP : Nat := 56
def LOP_FORNLOOP : Nat := 57
def LOP_FORGLOOP : Nat := 58
def LOP_FORGPREP_INEXT : Nat := 59
def LOP_FASTCALL3 : Nat := 60
def LOP_FORGPREP_NEXT : Nat := 61
def LOP_LOADKX : Nat := 66
def LOP_JUMPX : Nat := 67
def LOP_FASTCALL : Nat := 68
def LOP_FASTCALL1 : Nat := 73
def LOP_FASTCALL2 : Nat := 74
def LOP_FASTCALL2K : Nat := 75
def LOP_FORGPREP : Nat := 76
def LOP_JUMPXEQKNIL : Nat := 77
def LOP_JUMPXEQKB : Nat := 78
def LOP_JUMPXEQKN : Nat := 79
def LOP_JUMPXEQKS : Nat := 80

/-- `isJumpD` from `BytecodeBuilder.cpp`: opcodes whose branch offset is
the signed 16-bit D field. -/
def isJumpD (op : Nat) : Bool :=
  op = LOP_JUMP || op = LOP_JUMPIF || op = LOP_JUMPIFNOT ||
  op = LOP_JUMPIFEQ || op = LOP_JUMPIFLE || op = LOP_JUMPIFLT ||
  op = LOP_JUMPIFNOTEQ || op = LOP_JUMPIFNOTLE || op = LOP_JUMPIFNOTLT ||
  op = LOP_FORNPREP || op = LOP_FORNLOOP || op = LOP_FORGPREP ||
  op = LOP_FORGLOOP || op = LOP_FORGPREP_INEXT || op = LOP_FORGPREP_NEXT ||
  op = LOP_JUMPBACK || op = LOP_JUMPXEQKNIL || op = LOP_JUMPXEQKB ||
  op = LOP_JUMPXEQKN || op = LOP_JUMPXEQKS

/-- Modelled from the spec: `getOpLength` lives in `BytecodeUtils.h`
(not in this source tree).  §3: "the auxiliary word count for a given
opcode is fixed and known statically from the opcode alone"; the opcodes
with one auxiliary word are taken from the instruction set description. -/
def getOpLength (op : Nat) : Nat :=
  if op = LOP_GETGLOBAL || op = LOP_SETGLOBAL || op = LOP_GETIMPORT ||
     op = LOP_GETTABLEKS || op = LOP_SETTABLEKS || op = LOP_NAMECALL ||
     op = LOP_JUMPIFEQ || op = LOP_JUMPIFLE || op = LOP_JUMPIFLT ||
     op = LOP_JUMPIFNOTEQ || op = LOP_JUMPIFNOTLE || op = LOP_JUMPIFNOTLT ||
     op = LOP_NEWTABLE || op = LOP_SETLIST || op = LOP_FORGLOOP ||
     op = LOP_LOADKX || op = LOP_FASTCALL2 || op = LOP_FASTCALL2K ||
     op = LOP_FASTCALL3 || op = LOP_JUMPXEQKNIL || op = LOP_JUMPXEQKB ||
     op = LOP_JUMPXEQKN || op = LOP_JUMPXEQKS
  then 2 else 1

/-! ### Bit-operation bridge lemmas -/

theorem testBit_eq_false_of_lt {a : Nat} {k j : Nat} (ha : a < 2 ^ k)
    (hkj : k ≤ j) : a.testBit j = false := by
  apply Nat.testBit_lt_two_pow
  exact lt_of_lt_of_le ha (Nat.pow_le_pow_right (by norm_num) hkj)

/-- Bitwise-or of a value below `2^k` with a `k`-shifted value is addition:
the bridge between the C `|=` patching idiom and arithmetic. -/
theorem lor_shiftLeft_eq_add {a b k : Nat} (ha : a < 2 ^ k) :
    a ||| (b <<< k) = 2 ^ k * b + a := by
  apply Nat.eq_of_testBit_eq
  intro j
  rw [Nat.testBit_lor, Nat.testBit_shiftLeft, Nat.testBit_mul_pow_two_add b ha]
  by_cases hj : j < k
  · simp [Nat.not_le.mpr hj, hj]
  · have hk : k ≤ j := Nat.not_lt.mp hj
    simp [hk, hj, testBit_eq_false_of_lt ha hk]

theorem land_ffff (x : Nat) : x &&& 65535 = x % 65536 := by
  have h := Nat.and_pow_two_sub_one_eq_mod x 16
  norm_num at h
  exact h

theorem land_ff (x : Nat) : x &&& 255 = x % 256 := by
  have h := Nat.and_pow_two_sub_one_eq_mod x 8
  norm_num at h
  exact h

/-! ### Jump records and the builder state -/

/-- A jump record: source and target instruction offsets
(`BytecodeBuilder::Jump`). -/
structure Jump where
  source : Nat
  target : Nat
deriving DecidableEq, Repr

/-- A typed constant-pool key (`BytecodeBuilder::ConstantKey`): type tag
plus the raw value bits (`value`, and `extra` for vectors).  Numbers and
vector components are identified by their bit patterns, exactly as the
C key is built with `memcpy`. -/
structure ConstantKey where
  type : Nat
  value : Nat := 0
  extra : Nat := 0
deriving DecidableEq, Repr

/-- Constant type tags. Modelled from the spec: the `Constant::Type`
enumeration lives in the bytecode builder header, which is not in this
source tree; only distinctness of the tags matters. -/
def Type_Nil : Nat := 0
def Type_Boolean : Nat := 1
def Type_Number : Nat := 2
def Type_Vector : Nat := 3
def Type_String : Nat := 4
def Type_Import : Nat := 5
def Type_Table : Nat := 6
def Type_Closure : Nat := 7

/-- A constant-pool value (`BytecodeBuilder::Constant`).  `number` holds
the 64-bit IEEE bit pattern, `vector` the four 32-bit component bit
patterns; serialization writes exactly these bytes. -/
inductive Const where
  | nil
  | boolean (b : Bool)
  | number (bits : Nat)
  | vector (x y z w : Nat)
  | str (idx : Nat)
  | imp (iid : Nat)
  | table (shapeIdx : Nat)
  | closure (fid : Nat)
deriving DecidableEq, Repr

structure DebugLocal where
  name : Nat
  reg : Nat
  startpc : Nat
  endpc : Nat
deriving DecidableEq, Repr

structure TypedLocal where
  type : Nat
  reg : Nat
  startpc : Nat
  endpc : Nat
deriving DecidableEq, Repr

structure UserdataType where
  name : List Nat
  used : Bool := false
  nameRef : Nat := 0
deriving DecidableEq, Repr

/-- One function record (`BytecodeBuilder::Function`), as far as
serialization needs it. -/
structure FunctionRec where
  maxstacksize : Nat := 0
  numparams : Nat := 0
  numupvalues : Nat := 0
  isvararg : Bool := false
  debuglinedefined : Nat := 0
  debugname : Nat := 0
  typeinfo : List Nat := []
  data : List Nat := []
deriving DecidableEq, Repr

/-- The builder state.  Hash maps (`constantMap`, `tableShapeMap`,
`stringTable`) are association lists in insertion order; everything else
mirrors the corresponding `BytecodeBuilder` member. -/
structure Builder where
  insns : List Nat := []
  lines : List Int := []
  constants : List Const := []
  constantMap : List (ConstantKey × Int) := []
  tableShapes : List (List Nat) := []
  tableShapeMap : List (List Nat × Int) := []
  protos : List Nat := []
  jumps : List Jump := []
  hasLongJumps : Bool := false
  stringTable : List (List Nat × Nat) := []
  debugLocals : List DebugLocal := []
  debugUpvals : List Nat := []
  typedLocals : List TypedLocal := []
  typedUpvals : List Nat := []
  functions : List FunctionRec := []
  currentFunction : Nat := 0
  mainFunction : Nat := 0
  userdataTypes : List UserdataType := []
  debugLine : Int := 0
deriving DecidableEq, Repr

/-! ### Emission (`emitABC`, `emitAD`, `emitE`, `emitAux`, `emitLabel`) -/

def emitABC (s : Builder) (op a b c : Nat) : Builder :=
  let insn := op ||| (a % 256 <<< 8) ||| (b % 256 <<< 16) ||| (c % 256 <<< 24)
  { s with insns := s.insns ++ [insn], lines := s.lines ++ [s.debugLine] }

def emitAD (s : Builder) (op a : Nat) (d : Int) : Builder :=
  let insn := op ||| (a % 256 <<< 8) ||| (u16 d <<< 16)
  { s with insns := s.insns ++ [insn], lines := s.lines ++ [s.debugLine] }

def emitE (s : Builder) (op : Nat) (e : Int) : Builder :=
  let insn := op ||| ((e % 4294967296).toNat % 16777216 <<< 8)
  { s with insns := s.insns ++ [insn], lines := s.lines ++ [s.debugLine] }

def emitAux (s : Builder) (aux : Nat) : Builder :=
  { s with insns := s.insns ++ [aux % 4294967296],
           lines := s.lines ++ [s.debugLine] }

def emitLabel (s : Builder) : Nat := s.insns.length

/-! ### `patchJumpD` -/

/-- `kMaxJumpDistance = 1 << 23`. -/
def kMaxJumpDistance : Int := 8388608

/-- `BytecodeBuilder::patchJumpD`.  Computes `offset = target - jump - 1`;
if it fits a signed 16-bit field it is or-ed into the D field and the jump
is recorded; if not, but `|offset| < 2^23`, the record is kept unpatched
and `hasLongJumps` is set; otherwise the call fails with no state change. -/
def patchJumpD (s : Builder) (jumpLabel targetLabel : Nat) : Bool × Builder :=
  if int16Fits ((targetLabel : Int) - jumpLabel - 1) then
    (true, { s with insns := s.insns.set jumpLabel ((s.insns.getD jumpLabel 0) ||| (u16 ((targetLabel : Int) - jumpLabel - 1) <<< 16)), jumps := s.jumps ++ [⟨jumpLabel, targetLabel⟩] })
  else if |(targetLabel : Int) - jumpLabel - 1| < kMaxJumpDistance then
    (true, { s with hasLongJumps := true, jumps := s.jumps ++ [⟨jumpLabel, targetLabel⟩] })
  else
    (false, s)

/-! #### Basic field-extraction lemmas -/

theorem u16_lt (x : Int) : u16 x < 65536 := by
  unfold u16
  have h1 : x % 65536 < 65536 := Int.emod_lt_of_pos x (by norm_num)
  have h2 : 0 ≤ x % 65536 := Int.emod_nonneg x (by norm_num)
  omega

/-- Writing `u16 offset` into a zeroed D field and reading it back yields
the offset, for offsets that fit a signed 16-bit field. -/
theorem LUAU_INSN_D_set {insn : Nat} (off : Int) (hlow : insn < 65536)
    (hfits : int16Fits off = true) :
    LUAU_INSN_D (insn ||| (u16 off <<< 16)) = off := by
  have hb : -32768 ≤ off ∧ off < 32768 := by
    simpa [int16Fits, Bool.and_eq_true, decide_eq_true_eq] using hfits
  have h : insn ||| (u16 off <<< 16) = 65536 * u16 off + insn := by
    have h0 := lor_shiftLeft_eq_add (a := insn) (b := u16 off) (k := 16)
      (by norm_num [hlow])
    norm_num at h0
    exact h0
  rw [h]
  unfold LUAU_INSN_D u16
  have hu : (off % 65536).toNat < 65536 := by omega
  have hd : (65536 * (off % 65536).toNat + insn) / 65536 % 65536
      = (off % 65536).toNat := by
    rw [Nat.mul_add_div (by norm_num), Nat.div_eq_of_lt hlow, Nat.add_zero,
        Nat.mod_eq_of_lt hu]
  rw [hd]
  split <;> omega

/-- An instruction word whose D field reads as zero and which fits 32 bits
is below `2^16`. -/
theorem lt_65536_of_D_eq_zero {insn : Nat} (h32 : insn < 4294967296)
    (hd : LUAU_INSN_D insn = 0) : insn < 65536 := by
  unfold LUAU_INSN_D at hd
  have hlt : insn / 65536 < 65536 := by omega
  rw [Nat.mod_eq_of_lt hlt] at hd
  split at hd <;> omega

theorem getD_set_self {l : List Nat} {i : Nat} {v : Nat} (h : i < l.length) :
    (l.set i v).getD i 0 = v := by
  simp [List.getD_eq_getElem?_getD, List.getElem?_set_self', h]

theorem getD_set_ne {l : List Nat} {i j : Nat} {v : Nat} (h : i ≠ j) :
    (l.set i v).getD j 0 = l.getD j 0 := by
  simp [List.getD_eq_getElem?_getD, List.getElem?_set_ne h]

/-- Claim C5: `patchJumpD` computes `offset = target - jump - 1`; when the
offset fits a signed 16-bit field it writes it into the instruction's D
field and records the jump; when it does not fit but `|offset|` is below
the `2^23` maximum it records the jump unpatched and sets the long-jump
flag; and it returns failure exactly when `|offset|` reaches `2^23`, in
which case the whole builder state is left unchanged. -/
theorem patchJumpD_spec (s : Builder) (jumpLabel targetLabel : Nat)
    (hj : jumpLabel < s.insns.length)
    (h32 : s.insns.getD jumpLabel 0 < 4294967296)
    (hd : LUAU_INSN_D (s.insns.getD jumpLabel 0) = 0) :
    (int16Fits ((targetLabel : Int) - jumpLabel - 1) = true →
      (patchJumpD s jumpLabel targetLabel).1 = true ∧
      LUAU_INSN_D ((patchJumpD s jumpLabel targetLabel).2.insns.getD jumpLabel 0)
        = (targetLabel : Int) - jumpLabel - 1 ∧
      (patchJumpD s jumpLabel targetLabel).2.jumps
        = s.jumps ++ [⟨jumpLabel, targetLabel⟩] ∧
      (patchJumpD s jumpLabel targetLabel).2.hasLongJumps = s.hasLongJumps) ∧
    (int16Fits ((targetLabel : Int) - jumpLabel - 1) = false →
     |(targetLabel : Int) - jumpLabel - 1| < kMaxJumpDistance →
      (patchJumpD s jumpLabel targetLabel).1 = true ∧
      (patchJumpD s jumpLabel targetLabel).2.insns = s.insns ∧
      (patchJumpD s jumpLabel targetLabel).2.jumps
        = s.jumps ++ [⟨jumpLabel, targetLabel⟩] ∧
      (patchJumpD s jumpLabel targetLabel).2.hasLongJumps = true) ∧
    ((patchJumpD s jumpLabel targetLabel).1 = false ↔
      kMaxJumpDistance ≤ |(targetLabel : Int) - jumpLabel - 1|) ∧
    (kMaxJumpDistance ≤ |(targetLabel : Int) - jumpLabel - 1| →
      (patchJumpD s jumpLabel targetLabel).2 = s) := by
  have hlow : s.insns.getD jumpLabel 0 < 65536 := lt_65536_of_D_eq_zero h32 hd
  refine ⟨?_, ?_, ?_, ?_⟩
  · intro hfits
    have hred : patchJumpD s jumpLabel targetLabel
        = (true, { s with insns := s.insns.set jumpLabel ((s.insns.getD jumpLabel 0) ||| (u16 ((targetLabel : Int) - jumpLabel - 1) <<< 16)), jumps := s.jumps ++ [⟨jumpLabel, targetLabel⟩] }) := by
      rw [patchJumpD, if_pos hfits]
    rw [hred]
    refine ⟨rfl, ?_, rfl, rfl⟩
    show LUAU_INSN_D ((s.insns.set jumpLabel _).getD jumpLabel 0) = _
    rw [getD_set_self hj]
    exact LUAU_INSN_D_set _ hlow hfits
  · intro hnofit habs
    have hred : patchJumpD s jumpLabel targetLabel
        = (true, { s with hasLongJumps := true, jumps := s.jumps ++ [⟨jumpLabel, targetLabel⟩] }) := by
      rw [patchJumpD, if_neg (by simp [hnofit]), if_pos habs]
    rw [hred]
    exact ⟨rfl, rfl, rfl, rfl⟩
  · have hsplit : kMaxJumpDistance ≤ |(targetLabel : Int) - jumpLabel - 1| →
        int16Fits ((targetLabel : Int) - jumpLabel - 1) = false := by
      intro hbig
      unfold int16Fits kMaxJumpDistance at *
      rcases abs_cases ((targetLabel : Int) - jumpLabel - 1) with ⟨he, _⟩ | ⟨he, _⟩ <;>
        · simp only [Bool.and_eq_false_iff, decide_eq_false_iff_not, not_le, not_lt]
          omega
    constructor
    · intro hfail
      by_contra hcon
      push_neg at hcon
      rcases hfits : int16Fits ((targetLabel : Int) - jumpLabel - 1) with _ | _
      · rw [patchJumpD, if_neg (by simp [hfits]), if_pos hcon] at hfail
        exact absurd hfail (by simp)
      · rw [patchJumpD, if_pos hfits] at hfail
        exact absurd hfail (by simp)
    · intro hbig
      rw [patchJumpD, if_neg (by simp [hsplit hbig]), if_neg (not_lt.mpr hbig)]
  · intro hbig
    have hnofit : int16Fits ((targetLabel : Int) - jumpLabel - 1) = false := by
      unfold int16Fits kMaxJumpDistance at *
      rcases abs_cases ((targetLabel : Int) - jumpLabel - 1) with ⟨he, _⟩ | ⟨he, _⟩ <;>
        · simp only [Bool.and_eq_false_iff, decide_eq_false_iff_not, not_le, not_lt]
          omega
    rw [patchJumpD, if_neg (by simp [hnofit]), if_neg (not_lt.mpr hbig)]

/-- Witness for C5: patching a 2-instruction function's leading jump to the
end label succeeds and the D field decodes back to offset 1. -/
theorem patchJumpD_spec_witness :
    (patchJumpD ({ insns := [23, 2] } : Builder) 0 2).1 = true ∧
    LUAU_INSN_D ((patchJumpD ({ insns := [23, 2] } : Builder) 0 2).2.insns.getD 0 0)
      = 1 := by
  have h := patchJumpD_spec ({ insns := [23, 2] } : Builder) 0 2
    (by decide) (by decide) (by decide)
  have ha := h.1 (by decide)
  exact ⟨ha.1, by simpa using ha.2.1⟩

/-! ### Constant pool (`addConstant` and friends) -/

/-- `kMaxConstantCount = 1 << 23`. -/
def kMaxConstantCount : Nat := 8388608

/-- `kMaxClosureCount = 1 << 15`. -/
def kMaxClosureCount : Nat := 32768

/-- Association-list lookup standing in for `DenseHashMap::find` on the
constant map. -/
def lookupCK : List (ConstantKey × Int) → ConstantKey → Option Int
  | [], _ => none
  | (k, i) :: rest, key => if k = key then some i else lookupCK rest key

/-- `BytecodeBuilder::addConstant`: return the cached index when the typed
key is already present; otherwise append, unless the pool has reached
`kMaxConstantCount`, in which case return the `-1` sentinel. -/
def addConstant (s : Builder) (k : ConstantKey) (v : Const) : Int × Builder :=
  match lookupCK s.constantMap k with
  | some i => (i, s)
  | none =>
    if s.constants.length ≥ kMaxConstantCount then (-1, s)
    else (((s.constants.length : Nat) : Int),
      { s with constantMap := s.constantMap ++ [(k, ((s.constants.length : Nat) : Int))],
               constants := s.constants ++ [v] })

/-- Association-list lookup standing in for the global string table's
`DenseHashMap` (byte-for-byte key equality). -/
def lookupStr : List (List Nat × Nat) → List Nat → Option Nat
  | [], _ => none
  | (k, i) :: rest, key => if k = key then some i else lookupStr rest key

/-- `BytecodeBuilder::addStringTableEntry`: dedup by exact byte equality;
a new entry receives the 1-based index `stringTable.size()` as measured
after the default insertion, i.e. `old size + 1`. -/
def addStringTableEntry (s : Builder) (v : List Nat) : Nat × Builder :=
  match lookupStr s.stringTable v with
  | some i => (i, s)
  | none => (s.stringTable.length + 1,
      { s with stringTable := s.stringTable ++ [(v, s.stringTable.length + 1)] })

def addConstantNil (s : Builder) : Int × Builder :=
  addConstant s ⟨Type_Nil, 0, 0⟩ Const.nil

def addConstantBoolean (s : Builder) (b : Bool) : Int × Builder :=
  addConstant s ⟨Type_Boolean, if b then 1 else 0, 0⟩ (Const.boolean b)

/-- `addConstantNumber`: the key carries the double's 64-bit pattern. -/
def addConstantNumber (s : Builder) (bits : Nat) : Int × Builder :=
  addConstant s ⟨Type_Number, bits % 18446744073709551616, 0⟩ (Const.number bits)

/-- `addConstantVector`: `value` packs components x,y and `extra` packs
z,w, little-endian, exactly as the C `memcpy` does. -/
def addConstantVector (s : Builder) (x y z w : Nat) : Int × Builder :=
  addConstant s
    ⟨Type_Vector, x % 4294967296 + y % 4294967296 * 4294967296,
     z % 4294967296 + w % 4294967296 * 4294967296⟩
    (Const.vector x y z w)

def addConstantString (s : Builder) (v : List Nat) : Int × Builder :=
  let r := addStringTableEntry s v
  addConstant r.2 ⟨Type_String, r.1, 0⟩ (Const.str r.1)

def addImport (s : Builder) (iid : Nat) : Int × Builder :=
  addConstant s ⟨Type_Import, iid % 4294967296, 0⟩ (Const.imp iid)

def addConstantClosure (s : Builder) (fid : Nat) : Int × Builder :=
  addConstant s ⟨Type_Closure, fid % 4294967296, 0⟩ (Const.closure fid)

/-- Sequential interning of a list of keys (each with a dummy value),
collecting each call's result index. -/
def internAll (s : Builder) : List ConstantKey → List Int × Builder
  | [] => ([], s)
  | k :: rest =>
    let r := addConstant s k Const.nil
    let r2 := internAll r.2 rest
    (r.1 :: r2.1, r2.2)

/-! #### Lookup helper lemmas -/

theorem lookupCK_append_of_some {m : List (ConstantKey × Int)} {k : ConstantKey}
    {i : Int} (l : List (ConstantKey × Int)) (h : lookupCK m k = some i) :
    lookupCK (m ++ l) k = some i := by
  induction m with
  | nil => simp [lookupCK] at h
  | cons p rest ih =>
    rw [lookupCK] at h
    by_cases hk : p.1 = k
    · simp only [List.cons_append, lookupCK, if_pos hk] at *
      exact h
    · simp only [List.cons_append, lookupCK, if_neg hk] at *
      exact ih h

theorem lookupCK_append_none {m : List (ConstantKey × Int)} {k k' : ConstantKey}
    {i : Int} (h : lookupCK m k' = none) (hne : k ≠ k') :
    lookupCK (m ++ [(k, i)]) k' = none := by
  induction m with
  | nil => simp [lookupCK, hne]
  | cons p rest ih =>
    rw [lookupCK] at h
    by_cases hk : p.1 = k'
    · simp [hk] at h
    · simp only [List.cons_append, lookupCK, if_neg hk]
      exact ih (by simpa [hk] using h)

/-- Interning a pairwise-distinct key sequence into a builder where none
of the keys is cached yet: the `n`-th call returns the dense index
`pool size + n` while below capacity and the `-1` sentinel afterwards. -/
theorem internAll_go (ks : List ConstantKey) (b : Builder)
    (hdist : ks.Pairwise (· ≠ ·))
    (hnone : ∀ k ∈ ks, lookupCK b.constantMap k = none)
    (n : Nat) (hn : n < ks.length) :
    (internAll b ks).1.getD n 0 =
      if b.constants.length + n < kMaxConstantCount
      then ((b.constants.length + n : Nat) : Int) else -1 := by
  induction ks generalizing b n with
  | nil => simp at hn
  | cons k rest ih =>
    have hk := hnone k (List.mem_cons_self k rest)
    rw [internAll]
    simp only [addConstant, hk]
    by_cases hcap : b.constants.length ≥ kMaxConstantCount
    · simp only [if_pos hcap]
      cases n with
      | zero =>
        have hx : ¬ (b.constants.length < kMaxConstantCount) := by omega
        simp [hx]
      | succ m =>
        have hm : m < rest.length := by simpa using hn
        have := ih b (List.Pairwise.of_cons hdist)
          (fun k' hk' => hnone k' (List.mem_cons_of_mem k hk')) m hm
        simp only [List.getD_cons_succ, this]
        have h1 : ¬ (b.constants.length + m < kMaxConstantCount) := by omega
        have h2 : ¬ (b.constants.length + (m + 1) < kMaxConstantCount) := by omega
        simp [h1, h2]
    · simp only [if_neg hcap]
      cases n with
      | zero =>
        have hx : b.constants.length < kMaxConstantCount := by omega
        simp [hx]
      | succ m =>
        have hm : m < rest.length := by simpa using hn
        have hrest : rest.Pairwise (· ≠ ·) := List.Pairwise.of_cons hdist
        have hkni : ∀ k' ∈ rest, k ≠ k' := by
          intro k' hk'
          exact (List.pairwise_cons.mp hdist).1 k' hk'
        have := ih { b with
            constantMap := b.constantMap ++ [(k, ((b.constants.length : Nat) : Int))],
            constants := b.constants ++ [Const.nil] } hrest
          (by
            intro k' hk'
            exact lookupCK_append_none (hnone k' (List.mem_cons_of_mem k hk'))
              (hkni k' hk')) m hm
        simp only [List.getD_cons_succ, this]
        simp only [List.length_append, List.length_cons, List.length_nil]
        have : b.constants.length + 1 + m = b.constants.length + (m + 1) := by omega
        rw [this]

/-- Claim C4: starting from a fresh function and interning pairwise
distinct typed keys in sequence, the `n`-th intern (0-indexed, so the
intern that would receive index `n`) returns index `n` while `n < 2^23`
and the `-1` capacity sentinel as soon as `n` reaches `2^23`; in
particular the intern with index `2^23 - 1` succeeds, the next distinct
intern fails, and no successful intern returns an index `≥ 2^23`. -/
theorem addConstant_capacity (ks : List ConstantKey)
    (hdist : ks.Pairwise (· ≠ ·)) (n : Nat) (hn : n < ks.length) :
    (internAll ({} : Builder) ks).1.getD n 0 =
      if n < kMaxConstantCount then (n : Int) else -1 := by
  have h := internAll_go ks ({} : Builder) hdist (by intro k _; rfl) n hn
  simpa using h

/-- Witness for C4 at a small concrete instance: two distinct keys intern
to indices 0 and 1. -/
theorem addConstant_capacity_witness :
    (internAll ({} : Builder)
      [⟨Type_Number, 0, 0⟩, ⟨Type_Number, 1, 0⟩]).1.getD 1 0 = 1 := by
  have h := addConstant_capacity [⟨Type_Number, 0, 0⟩, ⟨Type_Number, 1, 0⟩]
    (by decide) 1 (by decide)
  simpa using h

/-- Claim C6: interning a typed key that is already cached returns the
cached index and leaves the whole builder state unchanged —
unconditionally, in particular also when the pool is at capacity — and
no later `addConstant` call (for any key) ever changes the index cached
for that key. -/
theorem addConstant_idempotent (s : Builder) (k : ConstantKey) (v : Const)
    (i : Int) (h : lookupCK s.constantMap k = some i) :
    addConstant s k v = (i, s) ∧
    ∀ k' v', lookupCK ((addConstant s k' v').2).constantMap k = some i := by
  constructor
  · simp [addConstant, h]
  · intro k' v'
    rw [addConstant]
    cases hk' : lookupCK s.constantMap k' with
    | some j => exact h
    | none =>
      by_cases hcap : s.constants.length ≥ kMaxConstantCount
      · simp only [if_pos hcap]
        exact h
      · simp only [if_neg hcap]
        exact lookupCK_append_of_some _ h

/-- Witness for C6: re-interning a cached nil key at a pool that is
nominally full still returns the cached index with no state change. -/
theorem addConstant_idempotent_witness :
    addConstant ({ constantMap := [(⟨Type_Nil, 0, 0⟩, 0)], constants := [Const.nil] } : Builder)
        ⟨Type_Nil, 0, 0⟩ Const.nil
      = (0, ({ constantMap := [(⟨Type_Nil, 0, 0⟩, 0)], constants := [Const.nil] } : Builder)) ∧
    lookupCK ((addConstant ({ constantMap := [(⟨Type_Nil, 0, 0⟩, 0)], constants := [Const.nil] } : Builder)
        ⟨Type_Boolean, 1, 0⟩ (Const.boolean true)).2).constantMap ⟨Type_Nil, 0, 0⟩
      = some 0 := by
  have h := addConstant_idempotent
    ({ constantMap := [(⟨Type_Nil, 0, 0⟩, 0)], constants := [Const.nil] } : Builder)
    ⟨Type_Nil, 0, 0⟩ Const.nil 0 (by decide)
  exact ⟨h.1, h.2 _ (Const.boolean true)⟩

/-! ### Serialization primitives (`writeByte`, `writeInt`, `writeVarInt`, ...) -/

def writeByte (b : Nat) : List Nat := [b % 256]

/-- 4 little-endian bytes of a C `int`. -/
def writeInt (v : Int) : List Nat :=
  [((v % 4294967296).toNat) % 256,
   ((v % 4294967296).toNat) / 256 % 256,
   ((v % 4294967296).toNat) / 65536 % 256,
   ((v % 4294967296).toNat) / 16777216 % 256]

/-- 8 little-endian bytes of a double, identified by its bit pattern. -/
def writeDouble (bits : Nat) : List Nat :=
  [bits % 256, bits / 256 % 256, bits / 65536 % 256, bits / 16777216 % 256,
   bits / 4294967296 % 256, bits / 1099511627776 % 256,
   bits / 281474976710656 % 256, bits / 72057594037927936 % 256]

/-- 4 little-endian bytes of a float, identified by its bit pattern. -/
def writeFloat (bits : Nat) : List Nat :=
  [bits % 256, bits / 256 % 256, bits / 65536 % 256, bits / 16777216 % 256]

/-- Little-endian 7-bit continuation varint (`writeVarInt`). -/
def writeVarInt (v : Nat) : List Nat :=
  ((v &&& 127) ||| (if 127 < v then 128 else 0)) ::
    (if _h : v >>> 7 = 0 then [] else writeVarInt (v >>> 7))
termination_by v
decreasing_by
  simp only [Nat.shiftRight_eq_div_pow] at *
  omega

/-! ### `writeStringTable` -/

/-- The `strings` vector of `writeStringTable`: a table-sized vector with
each entry stored at its 1-based index minus one. -/
def buildStringVec (tbl : List (List Nat × Nat)) : List (List Nat) :=
  tbl.foldl (fun acc p => acc.set (p.2 - 1) p.1) (List.replicate tbl.length [])

/-- `BytecodeBuilder::writeStringTable`. -/
def writeStringTable (s : Builder) : List Nat :=
  let strings := buildStringVec s.stringTable
  writeVarInt strings.length ++
    strings.foldl (fun acc str => acc ++ writeVarInt str.length ++ str) []

/-! ### Debug line encoder (`writeLineInfo`) -/

/-- `log2` from `BytecodeBuilder.cpp`: `r = 0; while (v >= 2 << r) r++`. -/
def log2Go (v r fuel : Nat) : Nat :=
  match fuel with
  | 0 => r
  | fuel + 1 => if 2 <<< r ≤ v then log2Go v (r + 1) fuel else r

def log2C (v : Nat) : Nat := log2Go v 0 v

/-- First-pass inner scan: advance `next` while the running min/max range
stays within an 8-bit delta (the `max - min > 255` comparison is the C
`int` computation, hence `wrap32`). -/
def scanGo (lines : List Int) (stop : Nat) : Nat → Int → Int → Nat → Nat
  | next, _, _, 0 => next
  | next, mn, mx, fuel + 1 =>
    if next < lines.length ∧ next < stop then
      if wrap32 (max mx (lines.getD next 0) - min mn (lines.getD next 0)) > 255
      then next
      else scanGo lines stop (next + 1) (min mn (lines.getD next 0))
        (max mx (lines.getD next 0)) fuel
    else next

/-- The window scan of the first pass, started as the C code starts it:
`next = offset`, `min = max = lines[offset]`, bound `offset + span`. -/
def scanNext (lines : List Int) (offset span : Nat) : Nat :=
  scanGo lines (offset + span) offset (lines.getD offset 0) (lines.getD offset 0)
    (lines.length + 1 - offset)

/-- The span update after one first-pass window: shrink to
`1 << log2(next - offset)` when the window ended early and not at the end
of the array. -/
def shrinkSpan (lines : List Int) (offset span : Nat) : Nat :=
  if scanNext lines offset span < lines.length ∧
     scanNext lines offset span - offset < span
  then 1 <<< log2C (scanNext lines offset span - offset) else span

/-- First pass of `writeLineInfo`: determine the span length, shrinking it
whenever a window's range does not fit the 8-bit delta. -/
def pass1Go (lines : List Int) : Nat → Nat → Nat → Nat
  | _, span, 0 => span
  | offset, span, fuel + 1 =>
    if offset < lines.length then
      pass1Go lines (offset + shrinkSpan lines offset span)
        (shrinkSpan lines offset span) fuel
    else span

def lineSpan (lines : List Int) : Nat :=
  pass1Go lines 0 16777216 (lines.length + 1)

/-- Second-pass window minimum (`min = lines[offset]` then fold `min`). -/
def windowMinGo (lines : List Int) (stop next : Nat) (mn : Int) (fuel : Nat) : Int :=
  match fuel with
  | 0 => mn
  | fuel + 1 =>
    if next < lines.length ∧ next < stop then
      windowMinGo lines stop (next + 1) (min mn (lines.getD next 0)) fuel
    else mn

def windowMin (lines : List Int) (offset span : Nat) : Int :=
  windowMinGo lines (offset + span) offset (lines.getD offset 0)
    (lines.length + 1 - offset)

/-- Second pass of `writeLineInfo`: one baseline (window minimum) per span. -/
def baselines (lines : List Int) (span : Nat) : List Int :=
  (List.range ((lines.length - 1) / span + 1)).map
    (fun k => windowMin lines (k * span) span)

/-- Third pass, delta stream: per instruction, the 8-bit delta to the span
baseline, written as a delta against the previous instruction's stored
delta (`uint8_t` arithmetic wraps mod 256). -/
def deltaBytes (lines bl : List Int) (logspan : Nat) :
    Nat → Nat → Nat → List Nat
  | _, _, 0 => []
  | i, lastOffset, fuel + 1 =>
    if i < lines.length then
      ((u8 (wrap32 (lines.getD i 0 - bl.getD (i >>> logspan) 0)) + 256
          - lastOffset % 256) % 256) ::
        deltaBytes lines bl logspan (i + 1)
          (u8 (wrap32 (lines.getD i 0 - bl.getD (i >>> logspan) 0))) fuel
    else []

/-- Third pass, baseline stream: each baseline as a 32-bit delta against
the previous baseline. -/
def baselineBytes (bl : List Int) (lastLine : Int) : List Nat :=
  match bl with
  | [] => []
  | b :: rest => writeInt (wrap32 (b - lastLine)) ++ baselineBytes rest b

/-- `BytecodeBuilder::writeLineInfo`. -/
def writeLineInfo (lines : List Int) : List Nat :=
  let span := lineSpan lines
  let logspan := log2C span
  let bl := baselines lines span
  writeByte logspan ++ deltaBytes lines bl logspan 0 0 lines.length ++ baselineBytes bl 0

/-! ### Function serialization (`writeFunction`, `endFunction`) -/

/-- Constant tags in the serialized form.  Modelled from the spec: the
`LBC_CONSTANT_*` enumeration lives in `Bytecode.h`, not in this source
tree; only distinctness matters. -/
def LBC_CONSTANT_NIL : Nat := 0
def LBC_CONSTANT_BOOLEAN : Nat := 1
def LBC_CONSTANT_NUMBER : Nat := 2
def LBC_CONSTANT_STRING : Nat := 3
def LBC_CONSTANT_IMPORT : Nat := 4
def LBC_CONSTANT_TABLE : Nat := 5
def LBC_CONSTANT_CLOSURE : Nat := 6
def LBC_CONSTANT_VECTOR : Nat := 7

/-- Serialization of one constant (`writeFunction`'s constant loop body). -/
def writeConstant (s : Builder) (c : Const) : List Nat :=
  match c with
  | .nil => writeByte LBC_CONSTANT_NIL
  | .boolean b => writeByte LBC_CONSTANT_BOOLEAN ++ writeByte (if b then 1 else 0)
  | .number bits => writeByte LBC_CONSTANT_NUMBER ++ writeDouble bits
  | .vector x y z w => writeByte LBC_CONSTANT_VECTOR ++ writeFloat x ++
      writeFloat y ++ writeFloat z ++ writeFloat w
  | .str idx => writeByte LBC_CONSTANT_STRING ++ writeVarInt idx
  | .imp iid => writeByte LBC_CONSTANT_IMPORT ++ writeInt (iid : Int)
  | .table shapeIdx =>
      let shape := s.tableShapes.getD shapeIdx []
      writeByte LBC_CONSTANT_TABLE ++ writeVarInt shape.length ++
        shape.foldl (fun acc k => acc ++ writeVarInt k) []
  | .closure fid => writeByte LBC_CONSTANT_CLOSURE ++ writeVarInt fid

/-- The optional type-info block of a function record. -/
def typeInfoBlock (s : Builder) (f : FunctionRec) : List Nat :=
  if f.typeinfo ≠ [] ∨ s.typedUpvals ≠ [] ∨ s.typedLocals ≠ [] then
    let temp := writeVarInt f.typeinfo.length ++ writeVarInt s.typedUpvals.length ++
      writeVarInt s.typedLocals.length ++ f.typeinfo ++
      s.typedUpvals.foldl (fun acc t => acc ++ writeByte t) [] ++
      s.typedLocals.foldl (fun acc l => acc ++ writeByte l.type ++ writeByte l.reg ++
        writeVarInt l.startpc ++ writeVarInt (l.endpc - l.startpc)) []
    writeVarInt temp.length ++ temp
  else writeVarInt 0

/-- The `hasLines` loop of `writeFunction`: `true` unless some line is 0. -/
def hasLinesB : List Int → Bool
  | [] => true
  | l :: rest => if l = 0 then false else hasLinesB rest

/-- The line-info section of a function record: a presence byte, and the
encoded line table only when every line is present. -/
def lineInfoSection (lines : List Int) : List Nat :=
  if hasLinesB lines then writeByte 1 ++ writeLineInfo lines else writeByte 0

/-- The debug-locals/upvalues section of a function record. -/
def debugInfoSection (s : Builder) : List Nat :=
  if s.debugLocals ≠ [] ∨ s.debugUpvals ≠ [] then
    writeByte 1 ++ writeVarInt s.debugLocals.length ++
    s.debugLocals.foldl (fun acc l => acc ++ writeVarInt l.name ++
      writeVarInt l.startpc ++ writeVarInt l.endpc ++ writeByte l.reg) [] ++
    writeVarInt s.debugUpvals.length ++
    s.debugUpvals.foldl (fun acc u => acc ++ writeVarInt u) []
  else writeByte 0

/-- `BytecodeBuilder::writeFunction`: header, type info, instructions,
constants, child protos, then debug info. -/
def writeFunction (s : Builder) (id flags : Nat) : List Nat :=
  let f := s.functions.getD id {}
  writeByte f.maxstacksize ++ writeByte f.numparams ++ writeByte f.numupvalues ++
  writeByte (if f.isvararg then 1 else 0) ++ writeByte flags ++
  typeInfoBlock s f ++
  writeVarInt s.insns.length ++
  s.insns.foldl (fun acc insn => acc ++ writeInt (insn : Int)) [] ++
  writeVarInt s.constants.length ++
  s.constants.foldl (fun acc c => acc ++ writeConstant s c) [] ++
  writeVarInt s.protos.length ++
  s.protos.foldl (fun acc p => acc ++ writeVarInt p) [] ++
  writeVarInt f.debuglinedefined ++ writeVarInt f.debugname ++
  lineInfoSection s.lines ++
  debugInfoSection s

/-- `BytecodeBuilder::endFunction` (with a null encoder and no dumping):
fill in the header fields, serialize the function record, and clear all
per-function state.  The global string table and function list persist. -/
def endFunction (s : Builder) (maxstacksize numupvalues flags : Nat) : Builder :=
  let f0 := s.functions.getD s.currentFunction {}
  let f1 := { f0 with maxstacksize := maxstacksize, numupvalues := numupvalues }
  let s1 := { s with functions := s.functions.set s.currentFunction f1 }
  let data := writeFunction s1 s.currentFunction flags
  { s1 with
    functions := s1.functions.set s.currentFunction { f1 with data := data },
    insns := [], lines := [], constants := [], protos := [], jumps := [],
    tableShapes := [], debugLocals := [], debugUpvals := [],
    typedLocals := [], typedUpvals := [], constantMap := [],
    tableShapeMap := [], currentFunction := 4294967295 }

/-! ### `finalize` and `getError` -/

/-- Modelled from the spec: the `LBC_VERSION_*` constants live in
`Bytecode.h`, not in this source tree.  The spec requires the valid
version range to exclude 0 (`§6`: a zero first byte is the reserved
error escape form), and `BytecodeBuilder.cpp` statically asserts
`LBC_VERSION_MIN ≤ LBC_VERSION_TARGET ≤ LBC_VERSION_MAX ≤ 127`. -/
def LBC_VERSION_MIN : Nat := 3
def LBC_VERSION_MAX : Nat := 6
def LBC_VERSION_TARGET : Nat := 6
def LBC_TYPE_VERSION_TARGET : Nat := 3

/-- `BytecodeBuilder::getVersion`. -/
def getVersion : Nat := LBC_VERSION_TARGET

def getTypeEncodingVersion : Nat := LBC_TYPE_VERSION_TARGET

/-- The `finalize` loop interning used userdata type names. -/
def internUserdataNames (s : Builder) : Builder :=
  (List.range s.userdataTypes.length).foldl
    (fun b i =>
      let ty := b.userdataTypes.getD i { name := [] }
      if ty.used then
        let r := addStringTableEntry b ty.name
        { r.2 with userdataTypes := r.2.userdataTypes.set i { ty with nameRef := r.1 } }
      else b)
    s

/-- `BytecodeBuilder::finalize`: version byte, type-encoding version byte,
string table, userdata type-name mapping, function records, main id. -/
def finalize (s : Builder) : List Nat :=
  let s1 := internUserdataNames s
  writeByte getVersion ++
  writeByte getTypeEncodingVersion ++
  writeStringTable s1 ++
  (List.range s1.userdataTypes.length).foldl
    (fun acc i => acc ++ writeByte (i + 1) ++
      writeVarInt ((s1.userdataTypes.getD i { name := [] }).nameRef)) [] ++
  writeByte 0 ++
  writeVarInt s1.functions.length ++
  s1.functions.foldl (fun acc f => acc ++ f.data) [] ++
  writeVarInt s1.mainFunction

/-- `BytecodeBuilder::getError`: a zero byte followed by the raw message. -/
def getError (message : List Nat) : List Nat :=
  0 :: message

/-! ### Claim C9: error blobs vs valid blobs -/

/-- Claim C9: `getError` produces a blob whose first byte is 0 followed by
the raw message bytes, while `finalize` always begins with the nonzero
version byte `getVersion`, which lies in `[LBC_VERSION_MIN,
LBC_VERSION_MAX]`; hence a zero first byte occurs exactly for the error
escape form. -/
theorem getError_finalize_first_byte :
    (∀ message : List Nat, getError message = 0 :: message) ∧
    (∀ s : Builder, ∃ rest, finalize s = getVersion :: rest) ∧
    LBC_VERSION_MIN ≤ getVersion ∧ getVersion ≤ LBC_VERSION_MAX ∧
    getVersion ≠ 0 := by
  refine ⟨fun _ => rfl, fun s => ⟨_, rfl⟩, by decide, by decide, by decide⟩

/-! ### Claim C7: the global string table -/

/-- Well-formedness of the string table: the entries' 1-based indices are
exactly `1, 2, ..., size` in insertion order (every reachable builder
satisfies this; `addStringTableEntry` preserves it). -/
def WfStringTable (s : Builder) : Prop :=
  s.stringTable.map Prod.snd = List.range' 1 s.stringTable.length

theorem lookupStr_append_of_some {m : List (List Nat × Nat)} {k : List Nat}
    {i : Nat} (l : List (List Nat × Nat)) (h : lookupStr m k = some i) :
    lookupStr (m ++ l) k = some i := by
  induction m with
  | nil => simp [lookupStr] at h
  | cons p rest ih =>
    rw [lookupStr] at h
    by_cases hk : p.1 = k
    · simp only [List.cons_append, lookupStr, if_pos hk] at *
      exact h
    · simp only [List.cons_append, lookupStr, if_neg hk] at *
      exact ih h

/-- The `strings` vector fill loop: entries whose 1-based indices continue
`i+1, i+2, ...` fill the accumulator's positions `i, i+1, ...` in order. -/
theorem buildVec_go (tbl : List (List Nat × Nat)) (acc : List (List Nat)) (i : Nat)
    (hsnd : tbl.map Prod.snd = List.range' (i + 1) tbl.length)
    (hlen : i + tbl.length ≤ acc.length) :
    tbl.foldl (fun a p => a.set (p.2 - 1) p.1) acc
      = acc.take i ++ tbl.map Prod.fst ++ acc.drop (i + tbl.length) := by
  induction tbl generalizing acc i with
  | nil => simp
  | cons p rest ih =>
    obtain ⟨str, j⟩ := p
    rw [List.map_cons, List.length_cons, List.range'_succ] at hsnd
    have hj : j = i + 1 := by
      have := List.head_eq_of_cons_eq hsnd
      simpa using this
    have hrest : rest.map Prod.snd = List.range' (i + 1 + 1) rest.length :=
      List.tail_eq_of_cons_eq hsnd
    have hi : i < acc.length := by
      simp only [List.length_cons] at hlen
      omega
    simp only [List.foldl_cons]
    have hset : (acc.set (j - 1) str) = acc.set i str := by rw [hj]; rfl
    rw [hset]
    have hlen' : (i + 1) + rest.length ≤ (acc.set i str).length := by
      rw [List.length_set]
      simp only [List.length_cons] at hlen
      omega
    rw [ih (acc.set i str) (i + 1) hrest hlen']
    have hdecomp : acc.set i str = acc.take i ++ str :: acc.drop (i + 1) :=
      List.set_eq_take_cons_drop str hi
    have htake : (acc.set i str).take (i + 1) = acc.take i ++ [str] := by
      rw [hdecomp, List.take_append_eq_append_take]
      have h1 : (acc.take i).take (i + 1) = acc.take i := by
        rw [List.take_take]
        congr 1
        omega
      have h2 : i + 1 - (acc.take i).length = 1 := by
        rw [List.length_take]
        omega
      rw [h1, h2]
      rfl
    have hdrop : (acc.set i str).drop (i + 1 + rest.length)
        = acc.drop (i + (rest.length + 1)) := by
      rw [hdecomp, List.drop_append_eq_append_drop]
      have h1 : (acc.take i).drop (i + 1 + rest.length) = [] := by
        apply List.drop_eq_nil_of_le
        rw [List.length_take]
        omega
      have h2 : i + 1 + rest.length - (acc.take i).length = 1 + rest.length := by
        rw [List.length_take]
        omega
      rw [h1, h2]
      simp only [List.nil_append]
      have : (1 + rest.length) = rest.length + 1 := by omega
      rw [this, List.drop_succ_cons, List.drop_drop]
      congr 1
      omega
    rw [htake, hdrop]
    simp [List.append_assoc]

/-- Under well-formedness, the `strings` vector lists the table's keys in
insertion (= index) order. -/
theorem buildStringVec_eq (tbl : List (List Nat × Nat))
    (hsnd : tbl.map Prod.snd = List.range' 1 tbl.length) :
    buildStringVec tbl = tbl.map Prod.fst := by
  have h := buildVec_go tbl (List.replicate tbl.length ([] : List Nat)) 0
    (by simpa using hsnd) (by simp)
  simpa [buildStringVec] using h

/-- Claim C7: string-table indices are global, dense and stable: a fresh
byte sequence gets 1-based index `size + 1`; a byte-equal request returns
the existing index with no state change, and no later insertion changes
it; no entry has index 0; `endFunction` preserves the table; and
`writeStringTable` serializes the entries in index order. -/
theorem stringTable_spec (s : Builder) (hwf : WfStringTable s) :
    (∀ v, lookupStr s.stringTable v = none →
      (addStringTableEntry s v).1 = s.stringTable.length + 1 ∧
      WfStringTable (addStringTableEntry s v).2) ∧
    (∀ v i, lookupStr s.stringTable v = some i →
      addStringTableEntry s v = (i, s)) ∧
    (∀ v i w, lookupStr s.stringTable v = some i →
      lookupStr ((addStringTableEntry s w).2).stringTable v = some i) ∧
    (∀ p ∈ s.stringTable, p.2 ≠ 0) ∧
    (∀ maxstacksize numupvalues flags,
      (endFunction s maxstacksize numupvalues flags).stringTable = s.stringTable) ∧
    writeStringTable s = writeVarInt s.stringTable.length ++
      (s.stringTable.map Prod.fst).foldl
        (fun acc str => acc ++ writeVarInt str.length ++ str) [] := by
  refine ⟨?_, ?_, ?_, ?_, ?_, ?_⟩
  · intro v hv
    rw [addStringTableEntry, hv]
    refine ⟨rfl, ?_⟩
    show (s.stringTable ++ [(v, s.stringTable.length + 1)]).map Prod.snd = _
    rw [List.map_append, hwf]
    simp only [List.map_cons, List.map_nil, List.length_append, List.length_cons,
      List.length_nil, List.range'_1_concat]
    congr 2
    omega
  · intro v i hv
    rw [addStringTableEntry, hv]
  · intro v i w hv
    rw [addStringTableEntry]
    cases hw : lookupStr s.stringTable w with
    | some j => exact hv
    | none => exact lookupStr_append_of_some _ hv
  · intro p hp
    have : p.2 ∈ s.stringTable.map Prod.snd := List.mem_map_of_mem Prod.snd hp
    rw [hwf] at this
    obtain ⟨k, _, hk⟩ := List.mem_range'.mp this
    omega
  · intro _ _ _
    rfl
  · rw [writeStringTable]
    have hb := buildStringVec_eq s.stringTable hwf
    rw [hb, List.length_map]

/-- Witness for C7: a one-entry table; re-requesting the same bytes is
stable, and a new byte sequence gets index 2. -/
theorem stringTable_spec_witness :
    addStringTableEntry ({ stringTable := [([104], 1)] } : Builder) [104]
      = (1, ({ stringTable := [([104], 1)] } : Builder)) ∧
    (addStringTableEntry ({ stringTable := [([104], 1)] } : Builder) [105]).1 = 2 := by
  have h := stringTable_spec ({ stringTable := [([104], 1)] } : Builder)
    (by unfold WfStringTable; decide)
  exact ⟨h.2.1 [104] 1 (by decide), (h.1 [105] (by decide)).1⟩

/-! ### Claim C8: the line-info presence byte -/

/-- Everything `writeFunction` emits before the line-info section. -/
def writeFunctionPrefix (s : Builder) (id flags : Nat) : List Nat :=
  let f := s.functions.getD id {}
  writeByte f.maxstacksize ++ writeByte f.numparams ++ writeByte f.numupvalues ++
  writeByte (if f.isvararg then 1 else 0) ++ writeByte flags ++
  typeInfoBlock s f ++
  writeVarInt s.insns.length ++
  s.insns.foldl (fun acc insn => acc ++ writeInt (insn : Int)) [] ++
  writeVarInt s.constants.length ++
  s.constants.foldl (fun acc c => acc ++ writeConstant s c) [] ++
  writeVarInt s.protos.length ++
  s.protos.foldl (fun acc p => acc ++ writeVarInt p) [] ++
  writeVarInt f.debuglinedefined ++ writeVarInt f.debugname

theorem hasLinesB_iff (L : List Int) : hasLinesB L = true ↔ ∀ l ∈ L, l ≠ 0 := by
  induction L with
  | nil => simp [hasLinesB]
  | cons l rest ih =>
    rw [hasLinesB]
    by_cases hl : l = 0
    · simp [hl]
    · simp [hl, ih]

/-- Claim C8: for a function with at least one emitted instruction, the
serialized record consists of the header/instruction/constant sections,
then a presence byte that is 1 followed by the encoded line table exactly
when every per-instruction line is nonzero, and a presence byte 0 with no
line table at all otherwise, then the debug-locals section. -/
theorem writeFunction_lineinfo (s : Builder) (id flags : Nat)
    (_hne : s.insns ≠ []) (_hlen : s.lines.length = s.insns.length) :
    writeFunction s id flags
      = writeFunctionPrefix s id flags ++
        (if ∀ l ∈ s.lines, l ≠ 0 then 1 :: writeLineInfo s.lines else [0]) ++
        debugInfoSection s := by
  rw [writeFunction, writeFunctionPrefix, lineInfoSection]
  by_cases hl : ∀ l ∈ s.lines, l ≠ 0
  · rw [if_pos ((hasLinesB_iff s.lines).mpr hl), if_pos hl]
    simp [writeByte, List.append_assoc]
  · rw [if_neg (fun hb => hl ((hasLinesB_iff s.lines).mp hb)), if_neg hl]
    simp [writeByte, List.append_assoc]

/-- Witness for C8: a two-instruction function with lines `[7, 7]` carries
presence byte 1 followed by its line table; with lines `[7, 0]` it
carries presence byte 0 and nothing else in that section. -/
theorem writeFunction_lineinfo_witness :
    writeFunction ({ insns := [2, 2], lines := [7, 7] } : Builder) 0 0
      = writeFunctionPrefix ({ insns := [2, 2], lines := [7, 7] } : Builder) 0 0 ++
        (1 :: writeLineInfo [7, 7]) ++
        debugInfoSection ({ insns := [2, 2], lines := [7, 7] } : Builder) ∧
    writeFunction ({ insns := [2, 2], lines := [7, 0] } : Builder) 0 0
      = writeFunctionPrefix ({ insns := [2, 2], lines := [7, 0] } : Builder) 0 0 ++
        [0] ++
        debugInfoSection ({ insns := [2, 2], lines := [7, 0] } : Builder) := by
  constructor
  · have h := writeFunction_lineinfo ({ insns := [2, 2], lines := [7, 7] } : Builder)
      0 0 (by decide) (by decide)
    rw [if_pos (by decide)] at h
    exact h
  · have h := writeFunction_lineinfo ({ insns := [2, 2], lines := [7, 0] } : Builder)
      0 0 (by decide) (by decide)
    rw [if_neg (by decide)] at h
    exact h

/-! ### Claim C10: `getStringHash` vs the VM's `luaS_hash` -/

/-- One step of the Lua 5.1 tail hash:
`h ^= (h << 5) + (h >> 2) + byte`, in `unsigned int` arithmetic. -/
def hashStep (h b : Nat) : Nat :=
  h ^^^ (((h <<< 5) % 4294967296 + (h >>> 2) + b % 256) % 4294967296)

/-- The tail loop `for (i = len; i > 0; --i) h ^= ... str[i-1]`:
bytes are consumed from the last to the first. -/
def hashTail (str : List Nat) (h : Nat) : Nat :=
  str.reverse.foldl hashStep h

/-- `BytecodeBuilder::getStringHash`. -/
def getStringHash (str : List Nat) : Nat :=
  hashTail str (str.length % 4294967296)

/-- 32-bit rotate-right as the `rol` macro `(x >> s) | (x << (32 - s))`. -/
def rol (x s : Nat) : Nat :=
  ((x >>> s) ||| (x <<< (32 - s))) % 4294967296

/-- Wrapping 32-bit subtraction. -/
def sub32 (x y : Nat) : Nat :=
  (x % 4294967296 + 4294967296 - y % 4294967296) % 4294967296

/-- A 4-byte little-endian aligned read (`memcpy(block, str, 12)`). -/
def read4 (str : List Nat) (i : Nat) : Nat :=
  str.getD i 0 % 256 + str.getD (i + 1) 0 % 256 * 256 +
  str.getD (i + 2) 0 % 256 * 65536 + str.getD (i + 3) 0 % 256 * 16777216

/-- The mixing loop of `luaS_hash` (VM/src/lstring.cpp): 12-byte blocks
through the ARX mix while `len >= 32`, then the Lua 5.1 tail hash. -/
def luaS_hashGo (str : List Nat) (len a b h : Nat) : Nat :=
  if 32 ≤ len then
    let a1 := (a + read4 str 0) % 4294967296
    let b1 := (b + read4 str 4) % 4294967296
    let h1 := (h + read4 str 8) % 4294967296
    let a2 := sub32 (a1 ^^^ h1) (rol h1 14)
    let b2 := sub32 (b1 ^^^ a2) (rol a2 11)
    let h2 := sub32 (h1 ^^^ b2) (rol b2 25)
    luaS_hashGo (str.drop 12) (len - 12) a2 b2 h2
  else
    hashTail (str.take len) h
termination_by len
decreasing_by omega

/-- `luaS_hash` from the VM. -/
def luaS_hash (str : List Nat) (len : Nat) : Nat :=
  luaS_hashGo str len 0 0 (len % 4294967296)

/-- Claim C10: for strings shorter than 32 bytes, the compiler's
`getStringHash` computes exactly the VM's `luaS_hash` (the VM's block
mixing never runs, and both then run the identical Lua 5.1 tail hash
seeded with the length). -/
theorem getStringHash_eq_luaS_hash (str : List Nat) (hlen : str.length < 32) :
    getStringHash str = luaS_hash str str.length := by
  rw [luaS_hash, luaS_hashGo, if_neg (by omega), getStringHash, List.take_length]

/-- Witness for C10 on the concrete two-byte string "hi". -/
theorem getStringHash_eq_luaS_hash_witness :
    getStringHash [104, 105] = luaS_hash [104, 105] 2 := by
  have h := getStringHash_eq_luaS_hash [104, 105] (by decide)
  simpa using h

/-! ### Jump folding (`foldJumps`) -/

/-- The chain-following loop of `foldJumps`: follow forward unconditional
jumps (`LOP_JUMP` with a nonnegative D field) until something else is
reached.  Each hop strictly increases the label, so `insns.length` steps
of fuel always suffice. -/
def chainFollow (insns : List Nat) (target : Nat) (fuel : Nat) : Nat :=
  match fuel with
  | 0 => target
  | fuel + 1 =>
    if LUAU_INSN_OP (insns.getD target 0) = LOP_JUMP ∧
       0 ≤ LUAU_INSN_D (insns.getD target 0) then
      chainFollow insns
        (((target : Int) + 1 + LUAU_INSN_D (insns.getD target 0)).toNat) fuel
    else target

/-- The folded target of one jump record: the initial hop decoded from the
jump's own D field, then the chain of forward unconditional jumps. -/
def foldTarget (insns : List Nat) (jump : Jump) : Nat :=
  chainFollow insns
    (((jump.source : Int) + 1 + LUAU_INSN_D (insns.getD jump.source 0)).toNat)
    insns.length

/-- The instruction rewrite of one `foldJumps` iteration: an unconditional
jump to a return is replaced by a copy of the return instruction; otherwise
the D field is rewritten with the folded offset when it fits 16 bits, and
the instruction is left alone when it does not. -/
def foldStepInsns (insns : List Nat) (jump : Jump) : List Nat :=
  if LUAU_INSN_OP (insns.getD jump.source 0) = LOP_JUMP ∧
     LUAU_INSN_OP (insns.getD (foldTarget insns jump) 0) = LOP_RETURN then
    insns.set jump.source (insns.getD (foldTarget insns jump) 0)
  else if int16Fits ((foldTarget insns jump : Int) - jump.source - 1) then
    insns.set jump.source ((insns.getD jump.source 0 &&& 65535) |||
      (u16 ((foldTarget insns jump : Int) - jump.source - 1) <<< 16))
  else insns

def foldJumpsGo (insns : List Nat) : List Jump → List Nat × List Jump
  | [] => (insns, [])
  | j :: rest =>
    ((foldJumpsGo (foldStepInsns insns j) rest).1,
     ⟨j.source, foldTarget insns j⟩ :: (foldJumpsGo (foldStepInsns insns j) rest).2)

/-- `BytecodeBuilder::foldJumps`: skipped entirely when the function has
long jumps; otherwise processes every record in order. -/
def foldJumps (s : Builder) : Builder :=
  if s.hasLongJumps then s
  else
    let r := foldJumpsGo s.insns s.jumps
    { s with insns := r.1, jumps := r.2 }

/-! ### Jump expansion (`expandJumps`) -/

/-- `kMaxJumpDistanceConservative = 32767 / 3`. -/
def kMaxJumpDistanceConservative : Int := 10922

/-- Insertion into a source-sorted jump list (`std::sort` comparator
`lhs.source < rhs.source`). -/
def insertJump (j : Jump) : List Jump → List Jump
  | [] => [j]
  | k :: rest => if j.source < k.source then j :: k :: rest else k :: insertJump j rest

def sortJumps : List Jump → List Jump
  | [] => []
  | j :: rest => insertJump j (sortJumps rest)

/-- State of the first `expandJumps` pass over the old instruction stream. -/
structure ExpandState where
  i : Nat
  cj : Nat
  newinsns : List Nat
  newlines : List Int
  remap : List Nat
deriving DecidableEq, Repr

/-- Copy `n` words of the current instruction, recording each word's new
position in the remap table. -/
def copyWords (insns : List Nat) (lines : List Int) (n : Nat)
    (st : ExpandState) : ExpandState :=
  match n with
  | 0 => st
  | n + 1 =>
    copyWords insns lines n
      { i := st.i + 1, cj := st.cj,
        newinsns := st.newinsns ++ [insns.getD st.i 0],
        newlines := st.newlines ++ [lines.getD st.i 0],
        remap := st.remap.set st.i st.newinsns.length }

/-- First pass of `expandJumps`: walk the old stream; in front of every
jump whose offset exceeds the conservative threshold, emit the two-word
trampoline `JUMP +1; JUMPX`; then copy the instruction (with its auxiliary
words) while building the remap table. -/
def expandPass1 (insns : List Nat) (lines : List Int) (jumps : List Jump)
    (st : ExpandState) (fuel : Nat) : ExpandState :=
  match fuel with
  | 0 => st
  | fuel + 1 =>
    if st.i < insns.length then
      let hit := st.cj < jumps.length ∧ (jumps.getD st.cj ⟨0, 0⟩).source = st.i
      let offset : Int := ((jumps.getD st.cj ⟨0, 0⟩).target : Int) -
        ((jumps.getD st.cj ⟨0, 0⟩).source : Int) - 1
      let tramp := hit ∧ |offset| > kMaxJumpDistanceConservative
      let st1 : ExpandState :=
        { st with
          cj := if hit then st.cj + 1 else st.cj,
          newinsns := if tramp
            then st.newinsns ++ [LOP_JUMP ||| (1 <<< 16), LOP_JUMPX]
            else st.newinsns,
          newlines := if tramp
            then st.newlines ++ [lines.getD st.i 0, lines.getD st.i 0]
            else st.newlines }
      expandPass1 insns lines jumps
        (copyWords insns lines (getOpLength (LUAU_INSN_OP (insns.getD st.i 0))) st1)
        fuel
    else st

/-- Second pass of `expandJumps`, loop body: repatch one jump against the
remapped positions.  A trampolined jump gets its `JUMPX` offset filled in
and its own instruction patched to `-2`; a short jump is repatched
directly (the C code asserts `int16_t(newoffset) == newoffset` here and
truncates regardless in release builds). -/
def expandPatch (newinsns : List Nat) (remap : List Nat) (jump : Jump) : List Nat :=
  if |(jump.target : Int) - jump.source - 1| > kMaxJumpDistanceConservative then
    (newinsns.set (remap.getD jump.source 0 - 1)
        ((newinsns.getD (remap.getD jump.source 0 - 1) 0 &&& 255) |||
          (((((remap.getD jump.target 0 : Int) - (remap.getD jump.source 0 : Int) - 1 + 1) %
              4294967296).toNat) <<< 8))).set (remap.getD jump.source 0)
      (((newinsns.set (remap.getD jump.source 0 - 1)
          ((newinsns.getD (remap.getD jump.source 0 - 1) 0 &&& 255) |||
            (((((remap.getD jump.target 0 : Int) - (remap.getD jump.source 0 : Int) - 1 + 1) %
                4294967296).toNat) <<< 8))).getD (remap.getD jump.source 0) 0 &&& 65535) |||
        (u16 (-2) <<< 16))
  else
    newinsns.set (remap.getD jump.source 0)
      ((newinsns.getD (remap.getD jump.source 0) 0 &&& 65535) |||
        (u16 ((remap.getD jump.target 0 : Int) - (remap.getD jump.source 0 : Int) - 1) <<< 16))

/-- `BytecodeBuilder::expandJumps`: no-op without long jumps; otherwise
sort the records by source, insert trampolines while remapping, and
repatch every record against the remapped positions. -/
def expandJumps (s : Builder) : Builder :=
  if !s.hasLongJumps then s
  else
    let js := sortJumps s.jumps
    let st := expandPass1 s.insns s.lines js
      ⟨0, 0, [], [], List.replicate s.insns.length 0⟩ (s.insns.length + 1)
    let newinsns := js.foldl (fun acc j => expandPatch acc st.remap j) st.newinsns
    { s with insns := newinsns, lines := st.newlines, jumps := js }

/-- The passes run at function close, in order: fold, then expand. -/
def closeJumps (s : Builder) : Builder :=
  expandJumps (foldJumps s)

/-! ### Claim C1: branch consistency after the passes -/

theorem foldStepInsns_length (insns : List Nat) (j : Jump) :
    (foldStepInsns insns j).length = insns.length := by
  rw [foldStepInsns]
  split
  · rw [List.length_set]
  · split
    · rw [List.length_set]
    · rfl

theorem foldStepInsns_getD_ne (insns : List Nat) (j : Jump) (p : Nat)
    (hp : j.source ≠ p) :
    (foldStepInsns insns j).getD p 0 = insns.getD p 0 := by
  rw [foldStepInsns]
  split
  · exact getD_set_ne hp
  · split
    · exact getD_set_ne hp
    · rfl

theorem foldJumpsGo_preserve (js : List Jump) (insns : List Nat) (p : Nat)
    (hp : ∀ j ∈ js, j.source ≠ p) :
    (foldJumpsGo insns js).1.getD p 0 = insns.getD p 0 := by
  induction js generalizing insns with
  | nil => rfl
  | cons j0 rest ih =>
    rw [foldJumpsGo]
    have h1 := ih (foldStepInsns insns j0) (fun j hj => hp j (List.mem_cons_of_mem j0 hj))
    rw [h1]
    exact foldStepInsns_getD_ne insns j0 p (hp j0 (List.mem_cons_self j0 rest))

/-- Rewriting a D field through the `&= 0xffff; |= uint16(off) << 16`
idiom yields an instruction whose D field decodes to `off`. -/
theorem LUAU_INSN_D_mask_set (insn : Nat) (off : Int)
    (hfits : int16Fits off = true) :
    LUAU_INSN_D ((insn &&& 65535) ||| (u16 off <<< 16)) = off := by
  rw [land_ffff]
  exact LUAU_INSN_D_set off (Nat.mod_lt insn (by norm_num)) hfits

/-- After `foldJumpsGo`, every produced record whose instruction is still
a D-field branch and whose folded offset fits 16 bits decodes to exactly
its recorded target. -/
theorem foldJumpsGo_spec (js : List Jump) (insns : List Nat)
    (hdist : js.Pairwise (fun a b => a.source ≠ b.source))
    (hsrc : ∀ j ∈ js, j.source < insns.length) :
    ∀ j ∈ (foldJumpsGo insns js).2,
      isJumpD (LUAU_INSN_OP ((foldJumpsGo insns js).1.getD j.source 0)) = true →
      int16Fits ((j.target : Int) - j.source - 1) = true →
      LUAU_INSN_D ((foldJumpsGo insns js).1.getD j.source 0)
        = (j.target : Int) - j.source - 1 := by
  induction js generalizing insns with
  | nil =>
    intro j hj
    simp [foldJumpsGo] at hj
  | cons j0 rest ih =>
    intro j hj hop hfits
    rw [foldJumpsGo] at hj hop ⊢
    rcases List.mem_cons.mp hj with hhead | htail
    · subst hhead
      simp only at hop ⊢
      have hpre : (foldJumpsGo (foldStepInsns insns j0) rest).1.getD j0.source 0
          = (foldStepInsns insns j0).getD j0.source 0 := by
        apply foldJumpsGo_preserve
        intro k hk
        exact ((List.pairwise_cons.mp hdist).1 k hk).symm
      rw [hpre] at hop ⊢
      rw [foldStepInsns] at hop ⊢
      by_cases h1 : LUAU_INSN_OP (insns.getD j0.source 0) = LOP_JUMP ∧
          LUAU_INSN_OP (insns.getD (foldTarget insns j0) 0) = LOP_RETURN
      · rw [if_pos h1] at hop
        rw [getD_set_self (hsrc j0 (List.mem_cons_self j0 rest))] at hop
        rw [h1.2] at hop
        exact absurd hop (by decide)
      · rw [if_neg h1] at hop ⊢
        by_cases h2 : int16Fits ((foldTarget insns j0 : Int) - j0.source - 1) = true
        · rw [if_pos h2]
          rw [getD_set_self (hsrc j0 (List.mem_cons_self j0 rest))]
          exact LUAU_INSN_D_mask_set _ _ h2
        · exact absurd hfits h2
    · have hlen : ∀ k ∈ rest, k.source < (foldStepInsns insns j0).length := by
        intro k hk
        rw [foldStepInsns_length]
        exact hsrc k (List.mem_cons_of_mem j0 hk)
      exact ih (foldStepInsns insns j0) (List.pairwise_cons.mp hdist).2 hlen
        j htail hop hfits

/-- Claim C1 (amended): for a function without long branches, after the
fold and expand passes every recorded jump whose instruction is still a
D-field branch, and whose recorded offset fits the signed 16-bit field,
decodes to exactly its recorded (folded) target:
`target = source + 1 + decoded D`.  Folding may legitimately retarget a
record through a chain of forward unconditional jumps, so the recorded
target — not the target originally requested by the patch — is what the
instruction resolves to. -/
theorem closeJumps_branch_consistency (s : Builder)
    (hlong : s.hasLongJumps = false)
    (hdist : s.jumps.Pairwise (fun a b => a.source ≠ b.source))
    (hsrc : ∀ j ∈ s.jumps, j.source < s.insns.length) :
    ∀ j ∈ (closeJumps s).jumps,
      isJumpD (LUAU_INSN_OP ((closeJumps s).insns.getD j.source 0)) = true →
      int16Fits ((j.target : Int) - j.source - 1) = true →
      LUAU_INSN_D ((closeJumps s).insns.getD j.source 0)
        = (j.target : Int) - j.source - 1 := by
  have hfold : foldJumps s = { s with
      insns := (foldJumpsGo s.insns s.jumps).1,
      jumps := (foldJumpsGo s.insns s.jumps).2 } := by
    rw [foldJumps, if_neg (by simp [hlong])]
  have hexp : closeJumps s = foldJumps s := by
    rw [closeJumps, hfold, expandJumps]
    simp [hlong]
  rw [hexp, hfold]
  exact foldJumpsGo_spec s.jumps s.insns hdist hsrc

/-- A three-instruction function whose first jump is patched to land on a
second, forward unconditional jump: two `JUMP`s then a `LOADNIL`, with
`patchJumpD 0 1` and `patchJumpD 1 2`. -/
def chainDemo : Builder :=
  (patchJumpD
    (patchJumpD
      (emitABC (emitAD (emitAD ({} : Builder) LOP_JUMP 0 0) LOP_JUMP 0 0)
        LOP_LOADNIL 0 0 0)
      0 1).2
    1 2).2

/-- Counterexample to claim C1 as stated: after the passes, the branch at
position 0 — patched towards position 1 — no longer resolves to the
position its patch requested: folding retargeted it through the forward
jump at 1, so it decodes to position 2. -/
theorem closeJumps_not_patch_requested :
    (patchJumpD
      (emitABC (emitAD (emitAD ({} : Builder) LOP_JUMP 0 0) LOP_JUMP 0 0)
        LOP_LOADNIL 0 0 0)
      0 1).1 = true ∧
    isJumpD (LUAU_INSN_OP ((closeJumps chainDemo).insns.getD 0 0)) = true ∧
    (0 : Int) + 1 + LUAU_INSN_D ((closeJumps chainDemo).insns.getD 0 0) ≠ 1 := by
  decide

/-- Witness for the amended claim C1 at the same concrete function: the
record folded to `(0, 2)` decodes back to target 2. -/
theorem closeJumps_branch_consistency_witness :
    LUAU_INSN_D ((closeJumps chainDemo).insns.getD 0 0) = 1 := by
  have h := closeJumps_branch_consistency chainDemo (by decide) (by decide) (by decide)
  simpa using h ⟨0, 2⟩ (by decide) (by decide) (by decide)

/-! ### Claim C3: the debug line encoding

The encoder (`writeLineInfo`) is embedded above from the source.  The
decoder below is modelled from the spec: the loader that decodes line
info lives in the VM (not under this source tree), and claim C3 spells
out the structural inverse explicitly — read the log-span byte, recover
each instruction's 8-bit delta by cumulative mod-256 summing of the
delta-of-delta bytes, recover each baseline by cumulative summing of the
32-bit baseline deltas, and reconstruct
`line = baseline[i >> logspan] + delta[i]`. -/

/-- Cumulative mod-256 sums of the delta-of-delta byte stream. -/
def cumsum8Go (acc : Nat) : List Nat → List Nat
  | [] => []
  | b :: rest => ((acc + b) % 256) :: cumsum8Go ((acc + b) % 256) rest

/-- A 32-bit little-endian signed integer from four bytes. -/
def int32OfLE (b0 b1 b2 b3 : Nat) : Int :=
  if b0 % 256 + b1 % 256 * 256 + b2 % 256 * 65536 + b3 % 256 * 16777216 < 2147483648
  then ((b0 % 256 + b1 % 256 * 256 + b2 % 256 * 65536 + b3 % 256 * 16777216 : Nat) : Int)
  else ((b0 % 256 + b1 % 256 * 256 + b2 % 256 * 65536 + b3 % 256 * 16777216 : Nat) : Int)
    - 4294967296

/-- Split a byte stream into consecutive 32-bit little-endian integers. -/
def chunk4 : List Nat → List Int
  | b0 :: b1 :: b2 :: b3 :: rest => int32OfLE b0 b1 b2 b3 :: chunk4 rest
  | _ => []

/-- Cumulative sums of the baseline delta stream. -/
def cumsumI (acc : Int) : List Int → List Int
  | [] => []
  | d :: rest => (acc + d) :: cumsumI (acc + d) rest

/-- Modelled from the spec: the structural-inverse decoder of the claim,
for a function of `n` instructions. -/
def decodeLineInfo (n : Nat) (bytes : List Nat) : List Int :=
  (List.range n).map (fun i =>
    (cumsumI 0 (chunk4 (bytes.drop (1 + n)))).getD (i >>> bytes.getD 0 0) 0 +
    (((cumsum8Go 0 ((bytes.drop 1).take n)).getD i 0 : Nat) : Int))

/-- Counterexample to claim C3 as stated: the nonzero line array
`[1, -2^31]` (legal C `int` values) is not reconstructed — the `int`
range computation `max - min` wraps negative so the span never shrinks,
the first delta wraps negative, and its 8-bit truncation decodes to
`-2147483647` instead of `1`. -/
theorem writeLineInfo_not_lossless_negative :
    ((1 : Int) ≠ 0 ∧ (-2147483648 : Int) ≠ 0) ∧
    decodeLineInfo 2 (writeLineInfo [1, -2147483648]) ≠ [1, -2147483648] := by
  constructor
  · exact ⟨by decide, by decide⟩
  · decide

/-! #### Arithmetic helper lemmas for the line encoder -/

theorem wrap32_eq_self {x : Int} (h1 : -2147483648 ≤ x) (h2 : x < 2147483648) :
    wrap32 x = x := by
  unfold wrap32
  omega

theorem u8_lt (x : Int) : u8 x < 256 := by
  unfold u8
  have h1 : x % 256 < 256 := Int.emod_lt_of_pos x (by norm_num)
  have h2 : 0 ≤ x % 256 := Int.emod_nonneg x (by norm_num)
  omega

/-- The loop `r = 0; while (v >= 2 << r) r++` returns at least the
position of the leading bit: `2 ^ log2C v ≤ v` for positive `v`. -/
theorem log2Go_le (v : Nat) (_hv : 1 ≤ v) :
    ∀ fuel r, 2 ^ r ≤ v → 2 ^ log2Go v r fuel ≤ v := by
  intro fuel
  induction fuel with
  | zero => intro r hr; simpa [log2Go] using hr
  | succ fuel ih =>
    intro r hr
    rw [log2Go]
    by_cases hc : 2 <<< r ≤ v
    · rw [if_pos hc]
      apply ih
      have : (2 : Nat) <<< r = 2 ^ (r + 1) := by
        rw [Nat.shiftLeft_eq]
        ring
      omega
    · rw [if_neg hc]
      exact hr

theorem log2C_le (v : Nat) (hv : 1 ≤ v) : 2 ^ log2C v ≤ v := by
  exact log2Go_le v hv v 0 (by simpa using hv)

/-- `log2C` is exact on powers of two. -/
theorem log2Go_pow (e : Nat) :
    ∀ fuel r, r ≤ e → e - r < fuel → log2Go (2 ^ e) r fuel = e := by
  intro fuel
  induction fuel with
  | zero => intro r _ h; omega
  | succ fuel ih =>
    intro r hre hf
    rw [log2Go]
    have hsh : (2 : Nat) <<< r = 2 ^ (r + 1) := by
      rw [Nat.shiftLeft_eq]
      ring
    by_cases hc : r = e
    · subst hc
      rw [if_neg (by rw [hsh]; exact Nat.not_le.mpr (Nat.pow_lt_pow_right (by norm_num) (by omega)))]
    · have hlt : r < e := by omega
      rw [if_pos (by rw [hsh]; exact Nat.pow_le_pow_right (by norm_num) (by omega))]
      exact ih (r + 1) (by omega) (by omega)

theorem log2C_pow (e : Nat) : log2C (2 ^ e) = e := by
  have h2e : e < 2 ^ e := Nat.lt_two_pow e
  exact log2Go_pow e (2 ^ e) 0 (by omega) (by omega)

theorem getD_mem_int {l : List Int} {i : Nat} (h : i < l.length) :
    l.getD i 0 ∈ l := by
  rw [List.getD_eq_getElem l 0 h]
  exact List.getElem_mem h

/-! #### The first-pass window scan -/

/-- Invariant specification of `scanGo`: starting anywhere inside the
window with running min/max that bound the already-scanned prefix and
whose range fits 8 bits, the scan result stays within bounds and every
pair of lines in the scanned prefix is within 255 of each other. -/
theorem scanGo_spec (lines : List Int) (stop start : Nat)
    (hpos : ∀ l ∈ lines, 0 < l ∧ l < 2147483648) :
    ∀ (fuel next : Nat) (mn mx : Int),
      start ≤ next → next ≤ stop → next ≤ lines.length →
      (∀ q, start ≤ q → q < next → mn ≤ lines.getD q 0 ∧ lines.getD q 0 ≤ mx) →
      0 < mn → mn < 2147483648 → 0 < mx → mx < 2147483648 → mx - mn ≤ 255 →
      next ≤ scanGo lines stop next mn mx fuel ∧
      scanGo lines stop next mn mx fuel ≤ stop ∧
      scanGo lines stop next mn mx fuel ≤ lines.length ∧
      ∀ i j, start ≤ i → i < scanGo lines stop next mn mx fuel →
        start ≤ j → j < scanGo lines stop next mn mx fuel →
        lines.getD i 0 - lines.getD j 0 ≤ 255 := by
  intro fuel
  induction fuel with
  | zero =>
    intro next mn mx h1 h2 h3 hinv hmn1 hmn2 hmx1 hmx2 hrange
    refine ⟨le_refl _, h2, h3, ?_⟩
    intro i j hi1 hi2 hj1 hj2
    simp only [scanGo] at hi2 hj2
    have hbi := hinv i hi1 hi2
    have hbj := hinv j hj1 hj2
    omega
  | succ fuel ih =>
    intro next mn mx h1 h2 h3 hinv hmn1 hmn2 hmx1 hmx2 hrange
    rw [scanGo]
    by_cases hc : next < lines.length ∧ next < stop
    · rw [if_pos hc]
      have hvmem := hpos (lines.getD next 0) (getD_mem_int hc.1)
      by_cases hbrk : wrap32 (max mx (lines.getD next 0) -
          min mn (lines.getD next 0)) > 255
      · rw [if_pos hbrk]
        refine ⟨le_refl _, h2, h3, ?_⟩
        intro i j hi1 hi2 hj1 hj2
        have hbi := hinv i hi1 hi2
        have hbj := hinv j hj1 hj2
        omega
      · rw [if_neg hbrk]
        have hmn1' : 0 < min mn (lines.getD next 0) := lt_min hmn1 hvmem.1
        have hmn2' : min mn (lines.getD next 0) < 2147483648 :=
          lt_of_le_of_lt (min_le_left _ _) hmn2
        have hmx1' : 0 < max mx (lines.getD next 0) :=
          lt_of_lt_of_le hmx1 (le_max_left _ _)
        have hmx2' : max mx (lines.getD next 0) < 2147483648 :=
          max_lt hmx2 hvmem.2
        have hrange' : max mx (lines.getD next 0) - min mn (lines.getD next 0) ≤ 255 := by
          have hw : wrap32 (max mx (lines.getD next 0) - min mn (lines.getD next 0))
              = max mx (lines.getD next 0) - min mn (lines.getD next 0) :=
            wrap32_eq_self (by omega) (by omega)
          omega
        have hinv' : ∀ q, start ≤ q → q < next + 1 →
            min mn (lines.getD next 0) ≤ lines.getD q 0 ∧
            lines.getD q 0 ≤ max mx (lines.getD next 0) := by
          intro q hq1 hq2
          by_cases hq : q < next
          · have := hinv q hq1 hq
            constructor
            · exact le_trans (min_le_left _ _) this.1
            · exact le_trans this.2 (le_max_left _ _)
          · have hqe : q = next := by omega
            subst hqe
            exact ⟨min_le_right _ _, le_max_right _ _⟩
        obtain ⟨ha, hb, hc', hd⟩ := ih (next + 1) (min mn (lines.getD next 0))
          (max mx (lines.getD next 0))
          (by omega) (by omega) (by omega) hinv' hmn1' hmn2' hmx1' hmx2' hrange'
        exact ⟨by omega, hb, hc', hd⟩
    · rw [if_neg hc]
      refine ⟨le_refl _, h2, h3, ?_⟩
      intro i j hi1 hi2 hj1 hj2
      have hbi := hinv i hi1 hi2
      have hbj := hinv j hj1 hj2
      omega

/-- The window scan as called by the first pass: the result lies strictly
beyond `offset`, within the window and the array, and the scanned prefix
`[offset, result)` has 8-bit range. -/
theorem scanNext_spec (lines : List Int) (offset span : Nat)
    (hpos : ∀ l ∈ lines, 0 < l ∧ l < 2147483648)
    (hoff : offset < lines.length) (hspan : 1 ≤ span) :
    offset + 1 ≤ scanNext lines offset span ∧
    scanNext lines offset span ≤ offset + span ∧
    scanNext lines offset span ≤ lines.length ∧
    ∀ i j, offset ≤ i → i < scanNext lines offset span →
      offset ≤ j → j < scanNext lines offset span →
      lines.getD i 0 - lines.getD j 0 ≤ 255 := by
  have hv := hpos (lines.getD offset 0) (getD_mem_int hoff)
  rw [scanNext]
  have hfuel : lines.length + 1 - offset = (lines.length - offset) + 1 := by omega
  rw [hfuel, scanGo]
  rw [if_pos ⟨hoff, by omega⟩]
  have hzero : ¬ (wrap32 (max (lines.getD offset 0) (lines.getD offset 0) -
      min (lines.getD offset 0) (lines.getD offset 0)) > 255) := by
    rw [max_self, min_self, sub_self]
    decide
  rw [if_neg hzero]
  rw [max_self, min_self]
  have h := scanGo_spec lines (offset + span) offset hpos (lines.length - offset)
    (offset + 1) (lines.getD offset 0) (lines.getD offset 0)
    (by omega) (by omega) (by omega)
    (by
      intro q hq1 hq2
      have hqe : q = offset := by omega
      subst hqe
      exact ⟨le_refl _, le_refl _⟩)
    hv.1 hv.2 hv.1 hv.2 (by omega)
  exact ⟨by omega, h.2.1, h.2.2.1, h.2.2.2⟩

/-! #### Span-alignment arithmetic -/

theorem div_eq_div_of_dvd {i j s' s : Nat} (hd : s' ∣ s)
    (h : i / s' = j / s') : i / s = j / s := by
  obtain ⟨m, rfl⟩ := hd
  rw [← Nat.div_div_eq_div_mul, ← Nat.div_div_eq_div_mul, h]

theorem div_eq_of_range {offset s j : Nat} (hs : 0 < s) (hmod : offset % s = 0)
    (h1 : offset ≤ j) (h2 : j < offset + s) : j / s = offset / s := by
  obtain ⟨k, hk⟩ := Nat.dvd_of_mod_eq_zero hmod
  subst hk
  have hj : j = s * k + (j - s * k) := by omega
  rw [hj, Nat.mul_add_div hs, Nat.div_eq_of_lt (by omega), Nat.add_zero]
  rw [show s * k = s * k + 0 by omega, Nat.mul_add_div hs]
  simp

theorem div_lt_of_lt_aligned {offset s i : Nat} (hs : 0 < s)
    (hmod : offset % s = 0) (h : i < offset) : i / s < offset / s := by
  obtain ⟨k, hk⟩ := Nat.dvd_of_mod_eq_zero hmod
  subst hk
  rw [show s * k = s * k + 0 by omega, Nat.mul_add_div hs, Nat.div_eq_of_lt hs,
    Nat.add_zero]
  rw [Nat.div_lt_iff_lt_mul hs, Nat.mul_comm]
  omega

/-- Extending the bucket-range invariant one aligned window to the right:
pairs inside the old region use the old invariant, pairs inside the new
window use the window property, and alignment rules out mixed pairs. -/
theorem bucket_extend (lines : List Int) (offset s : Nat) (hs : 0 < s)
    (hmod : offset % s = 0)
    (hold : ∀ i j, i < offset → j < offset → i < lines.length → j < lines.length →
      i / s = j / s → lines.getD i 0 - lines.getD j 0 ≤ 255)
    (hnew : ∀ i j, offset ≤ i → i < offset + s → i < lines.length →
      offset ≤ j → j < offset + s → j < lines.length →
      lines.getD i 0 - lines.getD j 0 ≤ 255) :
    ∀ i j, i < offset + s → j < offset + s → i < lines.length → j < lines.length →
      i / s = j / s → lines.getD i 0 - lines.getD j 0 ≤ 255 := by
  intro i j hi hj hli hlj hdiv
  by_cases hio : i < offset
  · by_cases hjo : j < offset
    · exact hold i j hio hjo hli hlj hdiv
    · exfalso
      have h1 : j / s = offset / s := div_eq_of_range hs hmod (by omega) hj
      have h2 : i / s < offset / s := div_lt_of_lt_aligned hs hmod hio
      omega
  · by_cases hjo : j < offset
    · exfalso
      have h1 : i / s = offset / s := div_eq_of_range hs hmod (by omega) hi
      have h2 : j / s < offset / s := div_lt_of_lt_aligned hs hmod hjo
      omega
    · exact hnew i j (by omega) hi hli (by omega) hj hlj

/-! #### The first pass chooses a span whose buckets all fit 8-bit deltas -/

theorem pass1Go_spec (lines : List Int)
    (hpos : ∀ l ∈ lines, 0 < l ∧ l < 2147483648) :
    ∀ (fuel offset span e : Nat),
      span = 2 ^ e → span ≤ 16777216 → offset % span = 0 →
      lines.length + 1 - offset ≤ fuel →
      (∀ i j, i < offset → j < offset → i < lines.length → j < lines.length →
        i / span = j / span → lines.getD i 0 - lines.getD j 0 ≤ 255) →
      ∃ e', pass1Go lines offset span fuel = 2 ^ e' ∧
        pass1Go lines offset span fuel ≤ 16777216 ∧
        ∀ i j, i < lines.length → j < lines.length →
          i / pass1Go lines offset span fuel = j / pass1Go lines offset span fuel →
          lines.getD i 0 - lines.getD j 0 ≤ 255 := by
  intro fuel
  induction fuel with
  | zero =>
    intro offset span e hspan hb hmod hfuel hinv
    refine ⟨e, by simp [pass1Go, hspan], by simpa [pass1Go] using hb, ?_⟩
    intro i j hi hj hdiv
    simp only [pass1Go] at hdiv
    exact hinv i j (by omega) (by omega) hi hj hdiv
  | succ fuel ih =>
    intro offset span e hspan hb hmod hfuel hinv
    rw [pass1Go]
    by_cases hoff : offset < lines.length
    · rw [if_pos hoff]
      have hspos : 1 ≤ span := by
        rw [hspan]
        exact Nat.one_le_two_pow
      obtain ⟨hn1, hn2, hn3, hn4⟩ := scanNext_spec lines offset span hpos hoff hspos
      by_cases hsh : scanNext lines offset span < lines.length ∧
          scanNext lines offset span - offset < span
      · -- the window overflowed the 8-bit delta: shrink the span
        have hs' : shrinkSpan lines offset span
            = 2 ^ log2C (scanNext lines offset span - offset) := by
          rw [shrinkSpan, if_pos hsh, Nat.shiftLeft_eq, one_mul]
        have hx1 : 1 ≤ scanNext lines offset span - offset := by omega
        have hle : 2 ^ log2C (scanNext lines offset span - offset)
            ≤ scanNext lines offset span - offset := log2C_le _ hx1
        have hltspan : shrinkSpan lines offset span < span := by
          rw [hs']
          omega
        have hdvd : shrinkSpan lines offset span ∣ span := by
          have he' : log2C (scanNext lines offset span - offset) < e := by
            by_contra hcon
            push_neg at hcon
            have h2 : (2 : Nat) ^ e ≤ 2 ^ log2C (scanNext lines offset span - offset) :=
              Nat.pow_le_pow_right (by norm_num) hcon
            omega
          have hdd : (2 : Nat) ^ log2C (scanNext lines offset span - offset) ∣ 2 ^ e :=
            pow_dvd_pow 2 (le_of_lt he')
          rw [← hspan] at hdd
          rw [hs']
          exact hdd
        have hspos' : 0 < shrinkSpan lines offset span := by
          rw [hs']
          exact Nat.pos_pow_of_pos _ (by norm_num)
        have hmodoff : offset % shrinkSpan lines offset span = 0 := by
          have hdo : shrinkSpan lines offset span ∣ offset :=
            dvd_trans hdvd (Nat.dvd_of_mod_eq_zero hmod)
          exact Nat.dvd_iff_mod_eq_zero.mp hdo
        have hmod' : (offset + shrinkSpan lines offset span) % shrinkSpan lines offset span = 0 := by
          rw [Nat.add_mod_right]
          exact hmodoff
        have hinv' := bucket_extend lines offset (shrinkSpan lines offset span) hspos'
          hmodoff
          (fun i j hi hj hli hlj hdiv =>
            hinv i j hi hj hli hlj (div_eq_div_of_dvd hdvd hdiv))
          (fun i j hi1 hi2 hli hj1 hj2 hlj =>
            hn4 i j hi1 (by rw [hs'] at hi2; omega) hj1 (by rw [hs'] at hj2; omega))
        exact ih (offset + shrinkSpan lines offset span) (shrinkSpan lines offset span)
          (log2C (scanNext lines offset span - offset)) hs' (by omega)
          hmod' (by omega) hinv'
      · -- the window fit: keep the span and move one full span forward
        have hs' : shrinkSpan lines offset span = span := by
          rw [shrinkSpan, if_neg hsh]
        have hnx : lines.length ≤ scanNext lines offset span ∨
            offset + span ≤ scanNext lines offset span := by
          rcases Nat.lt_or_ge (scanNext lines offset span) lines.length with h | h
          · right
            omega
          · left
            exact h
        have hinv' := bucket_extend lines offset span (by omega) hmod
          hinv
          (fun i j hi1 hi2 hli hj1 hj2 hlj => by
            apply hn4 i j hi1 ?_ hj1 ?_
            · omega
            · omega)
        rw [hs']
        exact ih (offset + span) span e hspan hb
          (by rw [Nat.add_mod_right]; exact hmod)
          (by omega) hinv'
    · rw [if_neg hoff]
      refine ⟨e, hspan, hb, ?_⟩
      intro i j hi hj hdiv
      exact hinv i j (by omega) (by omega) hi hj hdiv

/-- The chosen span is a power of two at most `2^24`, and every aligned
span bucket of the line array has range at most 255. -/
theorem lineSpan_spec (lines : List Int)
    (hpos : ∀ l ∈ lines, 0 < l ∧ l < 2147483648) :
    ∃ e, lineSpan lines = 2 ^ e ∧ lineSpan lines ≤ 16777216 ∧
      ∀ i j, i < lines.length → j < lines.length →
        i / lineSpan lines = j / lineSpan lines →
        lines.getD i 0 - lines.getD j 0 ≤ 255 := by
  have h := pass1Go_spec lines hpos (lines.length + 1) 0 16777216 24
    (by norm_num) (by norm_num) (by norm_num) (by omega)
    (by intro i j hi; omega)
  exact h

/-! #### The second pass: baselines are attained window minima -/

theorem windowMinGo_spec (lines : List Int) (stop : Nat) :
    ∀ (fuel next : Nat) (mn : Int),
      min stop lines.length ≤ next + fuel →
      windowMinGo lines stop next mn fuel ≤ mn ∧
      (∀ q, next ≤ q → q < stop → q < lines.length →
        windowMinGo lines stop next mn fuel ≤ lines.getD q 0) ∧
      (windowMinGo lines stop next mn fuel = mn ∨
        ∃ q, next ≤ q ∧ q < stop ∧ q < lines.length ∧
          windowMinGo lines stop next mn fuel = lines.getD q 0) := by
  intro fuel
  induction fuel with
  | zero =>
    intro next mn hfuel
    refine ⟨le_refl _, ?_, Or.inl rfl⟩
    intro q hq1 hq2 hq3
    omega
  | succ fuel ih =>
    intro next mn hfuel
    rw [windowMinGo]
    by_cases hc : next < lines.length ∧ next < stop
    · rw [if_pos hc]
      obtain ⟨ha, hb, hw⟩ := ih (next + 1) (min mn (lines.getD next 0)) (by omega)
      refine ⟨le_trans ha (min_le_left _ _), ?_, ?_⟩
      · intro q hq1 hq2 hq3
        by_cases hq : q = next
        · subst hq
          exact le_trans ha (min_le_right _ _)
        · exact hb q (by omega) hq2 hq3
      · rcases hw with hw | ⟨q, hq1, hq2, hq3, hq4⟩
        · rcases le_or_lt mn (lines.getD next 0) with hm | hm
          · left
            rw [hw, min_eq_left hm]
          · right
            exact ⟨next, le_refl _, hc.2, hc.1, by rw [hw, min_eq_right (le_of_lt hm)]⟩
        · right
          exact ⟨q, by omega, hq2, hq3, hq4⟩
    · rw [if_neg hc]
      refine ⟨le_refl _, ?_, Or.inl rfl⟩
      intro q hq1 hq2 hq3
      exact absurd ⟨by omega, by omega⟩ hc

/-- `windowMin` bounds its window from below and is attained inside it. -/
theorem windowMin_spec (lines : List Int) (offset span : Nat)
    (hoff : offset < lines.length) (hspan : 1 ≤ span) :
    (∀ q, offset ≤ q → q < offset + span → q < lines.length →
      windowMin lines offset span ≤ lines.getD q 0) ∧
    ∃ q, offset ≤ q ∧ q < offset + span ∧ q < lines.length ∧
      windowMin lines offset span = lines.getD q 0 := by
  rw [windowMin]
  obtain ⟨ha, hb, hw⟩ := windowMinGo_spec lines (offset + span)
    (lines.length + 1 - offset) offset (lines.getD offset 0) (by omega)
  refine ⟨hb, ?_⟩
  rcases hw with hw | ⟨q, hq1, hq2, hq3, hq4⟩
  · exact ⟨offset, le_refl _, by omega, hoff, hw⟩
  · exact ⟨q, hq1, hq2, hq3, hq4⟩

theorem baselines_getD (lines : List Int) (span k : Nat)
    (hk : k < (lines.length - 1) / span + 1) :
    (baselines lines span).getD k 0 = windowMin lines (k * span) span := by
  rw [baselines, List.getD_eq_getElem _ _ (by simpa using hk)]
  simp

/-- Indices inside an aligned window have that window's bucket index. -/
theorem window_div {k span q : Nat} (hs : 0 < span) (h1 : k * span ≤ q)
    (h2 : q < k * span + span) : q / span = k := by
  have hq : q = span * k + (q - k * span) := by
    have : k * span = span * k := Nat.mul_comm k span
    omega
  rw [hq, Nat.mul_add_div hs, Nat.div_eq_of_lt (by
    have : k * span = span * k := Nat.mul_comm k span
    omega)]
  omega

/-- The bucket index of any line, times the span, bounds the array. -/
theorem bucket_window_mem {i span : Nat} (hs : 0 < span) :
    (i / span) * span ≤ i ∧ i < (i / span) * span + span := by
  have hdm := Nat.div_add_mod i span
  have hml := Nat.mod_lt i hs
  have : (i / span) * span = span * (i / span) := Nat.mul_comm _ _
  omega

/-- Per-instruction delta bounds: with every aligned bucket's range at
most 255, each line sits 0..255 above its bucket's baseline, and the
baseline is itself a line value (hence in the positive int32 range). -/
theorem delta_bounds (lines : List Int)
    (hpos : ∀ l ∈ lines, 0 < l ∧ l < 2147483648)
    (span : Nat) (hspan : 1 ≤ span)
    (hbuckets : ∀ i j, i < lines.length → j < lines.length → i / span = j / span →
      lines.getD i 0 - lines.getD j 0 ≤ 255) :
    ∀ i, i < lines.length →
      0 ≤ lines.getD i 0 - (baselines lines span).getD (i / span) 0 ∧
      lines.getD i 0 - (baselines lines span).getD (i / span) 0 ≤ 255 ∧
      0 < (baselines lines span).getD (i / span) 0 ∧
      (baselines lines span).getD (i / span) 0 < 2147483648 := by
  intro i hi
  have hkb : i / span < (lines.length - 1) / span + 1 := by
    have := Nat.div_le_div_right (c := span) (show i ≤ lines.length - 1 by omega)
    omega
  rw [baselines_getD lines span (i / span) hkb]
  obtain ⟨hwin1, hwin2⟩ := bucket_window_mem (i := i) (show 0 < span by omega)
  have hoff : i / span * span < lines.length := by omega
  obtain ⟨hlb, q, hq1, hq2, hq3, hq4⟩ := windowMin_spec lines (i / span * span) span
    hoff hspan
  have hqdiv : q / span = i / span := window_div (by omega) hq1 hq2
  have hqpos := hpos (lines.getD q 0) (getD_mem_int hq3)
  constructor
  · have := hlb i hwin1 hwin2 hi
    omega
  · refine ⟨?_, ?_, ?_⟩
    · rw [hq4]
      exact hbuckets i q hi hq3 (by omega)
    · rw [hq4]
      exact hqpos.1
    · rw [hq4]
      exact hqpos.2

/-- Every baseline value is a line value, hence a positive int32. -/
theorem baselines_pos (lines : List Int)
    (hpos : ∀ l ∈ lines, 0 < l ∧ l < 2147483648)
    (span : Nat) (hspan : 1 ≤ span) (hne : lines ≠ []) :
    ∀ b ∈ baselines lines span, 0 < b ∧ b < 2147483648 := by
  intro b hb
  rw [baselines] at hb
  obtain ⟨k, hk, hkb⟩ := List.mem_map.mp hb
  have hkr := List.mem_range.mp hk
  have hlen1 : 1 ≤ lines.length := by
    cases lines with
    | nil => exact absurd rfl hne
    | cons a l => simp
  have hoff : k * span < lines.length := by
    have h1 : k * span ≤ (lines.length - 1) / span * span :=
      Nat.mul_le_mul_right span (by omega)
    have h2 : (lines.length - 1) / span * span ≤ lines.length - 1 :=
      Nat.div_mul_le_self _ _
    omega
  obtain ⟨hlb, q, hq1, hq2, hq3, hq4⟩ := windowMin_spec lines (k * span) span
    hoff hspan
  rw [← hkb, hq4]
  exact hpos (lines.getD q 0) (getD_mem_int hq3)

/-! #### Byte-stream round trips -/

theorem deltaBytes_length (lines bl : List Int) (logspan : Nat) :
    ∀ (fuel i last : Nat), lines.length - i ≤ fuel →
      (deltaBytes lines bl logspan i last fuel).length = lines.length - i := by
  intro fuel
  induction fuel with
  | zero =>
    intro i last hfuel
    simp only [deltaBytes, List.length_nil]
    omega
  | succ fuel ih =>
    intro i last hfuel
    rw [deltaBytes]
    by_cases hi : i < lines.length
    · rw [if_pos hi]
      rw [List.length_cons, ih (i + 1) _ (by omega)]
      omega
    · rw [if_neg hi]
      simp only [List.length_nil]
      omega

theorem cumsum8_deltaBytes (lines bl : List Int) (logspan : Nat) :
    ∀ (fuel i acc : Nat), lines.length - i ≤ fuel → acc < 256 →
      cumsum8Go acc (deltaBytes lines bl logspan i acc fuel) =
        (List.range' i (lines.length - i)).map
          (fun q => u8 (wrap32 (lines.getD q 0 - bl.getD (q >>> logspan) 0))) := by
  intro fuel
  induction fuel with
  | zero =>
    intro i acc hfuel hacc
    have hz : lines.length - i = 0 := by omega
    rw [hz]
    simp [deltaBytes, cumsum8Go]
  | succ fuel ih =>
    intro i acc hfuel hacc
    rw [deltaBytes]
    by_cases hi : i < lines.length
    · rw [if_pos hi]
      rw [cumsum8Go]
      have hu := u8_lt (wrap32 (lines.getD i 0 - bl.getD (i >>> logspan) 0))
      have hv : (acc + (u8 (wrap32 (lines.getD i 0 - bl.getD (i >>> logspan) 0)) + 256
          - acc % 256) % 256) % 256
          = u8 (wrap32 (lines.getD i 0 - bl.getD (i >>> logspan) 0)) := by
        omega
      rw [hv]
      rw [ih (i + 1) _ (by omega) hu]
      have hr : lines.length - i = (lines.length - (i + 1)) + 1 := by omega
      rw [hr, List.range'_succ]
      simp
    · rw [if_neg hi]
      have hz : lines.length - i = 0 := by omega
      rw [hz]
      simp [cumsum8Go]

theorem chunk4_writeInt (v : Int) (rest : List Nat) :
    chunk4 (writeInt v ++ rest) = wrap32 v :: chunk4 rest := by
  simp only [writeInt, List.cons_append, List.nil_append, chunk4]
  congr 1
  have hn : ((v % 4294967296).toNat) < 4294967296 := by omega
  unfold int32OfLE wrap32
  split <;> omega

theorem wrap32_mem {x : Int} : -2147483648 ≤ wrap32 x ∧ wrap32 x < 2147483648 := by
  unfold wrap32
  omega

theorem cumsumI_baselineBytes :
    ∀ (bl : List Int) (last : Int),
      (∀ b ∈ bl, 0 < b ∧ b < 2147483648) → 0 ≤ last → last < 2147483648 →
      cumsumI last (chunk4 (baselineBytes bl last)) = bl := by
  intro bl
  induction bl with
  | nil =>
    intro last _ _ _
    rfl
  | cons b rest ih =>
    intro last hb h1 h2
    have hbb := hb b (List.mem_cons_self b rest)
    rw [baselineBytes, chunk4_writeInt]
    have hw : wrap32 (wrap32 (b - last)) = b - last := by
      rw [wrap32_eq_self (x := b - last) (by omega) (by omega),
          wrap32_eq_self (by omega) (by omega)]
    rw [hw, cumsumI]
    have hlb : last + (b - last) = b := by ring
    rw [hlb]
    rw [ih b (fun x hx => hb x (List.mem_cons_of_mem b hx)) (by omega) (by omega)]

/-! #### Claim C3 (amended): the encoding is lossless for positive lines -/

/-- Claim C3 (amended): for every non-empty line array whose entries are
positive int32 values, decoding the output of `writeLineInfo` as the
structural inverse reconstructs the original line of every instruction,
and every per-instruction delta against its span baseline lies in
0..255. -/
theorem writeLineInfo_lossless (lines : List Int) (hne : lines ≠ [])
    (hpos : ∀ l ∈ lines, 0 < l ∧ l < 2147483648) :
    decodeLineInfo lines.length (writeLineInfo lines) = lines ∧
    ∀ i, i < lines.length →
      0 ≤ lines.getD i 0 -
        (baselines lines (lineSpan lines)).getD (i / lineSpan lines) 0 ∧
      lines.getD i 0 -
        (baselines lines (lineSpan lines)).getD (i / lineSpan lines) 0 ≤ 255 := by
  obtain ⟨e, hspan_eq, hspan_le, hbuckets⟩ := lineSpan_spec lines hpos
  have hspan1 : 1 ≤ lineSpan lines := by
    rw [hspan_eq]
    exact Nat.one_le_two_pow
  have hdb := delta_bounds lines hpos (lineSpan lines) hspan1 hbuckets
  have hlog : log2C (lineSpan lines) = e := by
    rw [hspan_eq, log2C_pow]
  have he24 : e ≤ 24 := by
    by_contra hcon
    push_neg at hcon
    have h2 : (2 : Nat) ^ 25 ≤ 2 ^ e := Nat.pow_le_pow_right (by norm_num) (by omega)
    have : (2 : Nat) ^ 25 = 33554432 := by norm_num
    omega
  have hshift : ∀ i : Nat, i >>> e = i / lineSpan lines := by
    intro i
    rw [Nat.shiftRight_eq_div_pow, hspan_eq]
  have hbpos := baselines_pos lines hpos (lineSpan lines) hspan1 hne
  -- decompose the byte stream
  have hwb : writeByte (log2C (lineSpan lines)) = [e] := by
    rw [hlog, writeByte, Nat.mod_eq_of_lt (by omega)]
  have hlen1 : 1 ≤ lines.length := by
    cases lines with
    | nil => exact absurd rfl hne
    | cons a l => simp
  have hDlen : (deltaBytes lines (baselines lines (lineSpan lines))
      (log2C (lineSpan lines)) 0 0 lines.length).length = lines.length := by
    rw [deltaBytes_length lines _ _ lines.length 0 0 (by omega)]
    omega
  have hstream : writeLineInfo lines
      = e :: (deltaBytes lines (baselines lines (lineSpan lines))
          (log2C (lineSpan lines)) 0 0 lines.length ++
        baselineBytes (baselines lines (lineSpan lines)) 0) := by
    rw [writeLineInfo, hwb]
    rfl
  have hbyte0 : (writeLineInfo lines).getD 0 0 = e := by
    rw [hstream]
    rfl
  have hdrop1 : (writeLineInfo lines).drop 1
      = deltaBytes lines (baselines lines (lineSpan lines))
          (log2C (lineSpan lines)) 0 0 lines.length ++
        baselineBytes (baselines lines (lineSpan lines)) 0 := by
    rw [hstream]
    rfl
  have htake : ((writeLineInfo lines).drop 1).take lines.length
      = deltaBytes lines (baselines lines (lineSpan lines))
          (log2C (lineSpan lines)) 0 0 lines.length := by
    rw [hdrop1]
    exact List.take_left' hDlen
  have hdropB : (writeLineInfo lines).drop (1 + lines.length)
      = baselineBytes (baselines lines (lineSpan lines)) 0 := by
    rw [hstream]
    have h11 : 1 + lines.length = lines.length + 1 := by omega
    rw [h11, List.drop_succ_cons]
    exact List.drop_left' hDlen
  have hdeltas : cumsum8Go 0 (((writeLineInfo lines).drop 1).take lines.length)
      = (List.range' 0 lines.length).map
          (fun q => u8 (wrap32 (lines.getD q 0 -
            (baselines lines (lineSpan lines)).getD (q >>> log2C (lineSpan lines)) 0))) := by
    rw [htake]
    have h := cumsum8_deltaBytes lines (baselines lines (lineSpan lines))
      (log2C (lineSpan lines)) lines.length 0 0 (by omega) (by omega)
    simpa using h
  have hbl : cumsumI 0 (chunk4 ((writeLineInfo lines).drop (1 + lines.length)))
      = baselines lines (lineSpan lines) := by
    rw [hdropB]
    exact cumsumI_baselineBytes _ 0 hbpos (by omega) (by omega)
  constructor
  · apply List.ext_getElem
    · simp [decodeLineInfo]
    · intro i hi hi2
      simp only [decodeLineInfo]
      rw [List.getElem_map, List.getElem_range]
      rw [hbl, hbyte0, hdeltas]
      have hilen : i < lines.length := hi2
      have hget : ((List.range' 0 lines.length).map
          (fun q => u8 (wrap32 (lines.getD q 0 -
            (baselines lines (lineSpan lines)).getD (q >>> log2C (lineSpan lines)) 0)))).getD i 0
          = u8 (wrap32 (lines.getD i 0 -
            (baselines lines (lineSpan lines)).getD (i >>> log2C (lineSpan lines)) 0)) := by
        rw [List.getD_eq_getElem _ _ (by simpa using hilen), List.getElem_map,
          List.getElem_range']
        simp
      rw [hget, hlog, hshift i]
      obtain ⟨hd1, hd2, hd3, hd4⟩ := hdb i hilen
      have hw : wrap32 (lines.getD i 0 -
          (baselines lines (lineSpan lines)).getD (i / lineSpan lines) 0)
          = lines.getD i 0 -
            (baselines lines (lineSpan lines)).getD (i / lineSpan lines) 0 :=
        wrap32_eq_self (by omega) (by omega)
      rw [hw]
      have hu8 : ((u8 (lines.getD i 0 -
          (baselines lines (lineSpan lines)).getD (i / lineSpan lines) 0) : Nat) : Int)
          = lines.getD i 0 -
            (baselines lines (lineSpan lines)).getD (i / lineSpan lines) 0 := by
        unfold u8
        omega
      rw [hu8]
      rw [List.getD_eq_getElem lines 0 hilen]
      omega
  · intro i hi
    obtain ⟨hd1, hd2, _, _⟩ := hdb i hi
    exact ⟨hd1, hd2⟩

/-- Witness for the amended claim C3 on the concrete line array `[5, 6]`. -/
theorem writeLineInfo_lossless_witness :
    decodeLineInfo 2 (writeLineInfo [5, 6]) = [5, 6] := by
  have h := writeLineInfo_lossless [5, 6] (by decide) (by decide)
  simpa using h.1

/-! ### Claim C2: the conservative expansion threshold

The configuration below is reachable through `patchJumpD` alone: a jump at
position 0 to target 10923 (offset exactly `32767/3 = 10922`, patched
directly into the D field), positions 1..10923 all one-word jumps whose
offsets exceed the conservative threshold (position 1's offset 40000 does
not fit 16 bits, setting the long-jump flag and leaving its D field 0;
positions 2..10923 jump 20000 ahead, patched into their D fields), and
`LOADNIL` filler up to position 40002.  When `expandJumps` runs, all
10923 words between the first jump and its target receive two-word
trampolines, so its remapped offset is `3 * 10922 + 2 = 32768`, which no
longer fits the signed 16-bit field. -/

def badInsns : List Nat :=
  (LOP_JUMP ||| (10922 <<< 16)) :: LOP_JUMP ::
    ((List.range 10922).map (fun _ => LOP_JUMP ||| (20000 <<< 16)) ++
      List.replicate 29079 LOP_LOADNIL)

def badLines : List Int := List.replicate 40003 1

def badJumps : List Jump :=
  ⟨0, 10923⟩ :: ⟨1, 40002⟩ ::
    (List.range 10922).map (fun k => ⟨k + 2, k + 20003⟩)

def badState : Builder :=
  { insns := badInsns, lines := badLines, jumps := badJumps, hasLongJumps := true }

theorem badInsns_length : badInsns.length = 40003 := by
  rw [badInsns, List.length_cons, List.length_cons, List.length_append,
    List.length_map, List.length_range, List.length_replicate]

theorem badJumps_length : badJumps.length = 10924 := by
  rw [badJumps, List.length_cons, List.length_cons, List.length_map,
    List.length_range]

theorem getD_map_range {α : Type} (f : Nat → α) (d : α) {k n : Nat} (hk : k < n) :
    ((List.range n).map f).getD k d = f k := by
  rw [List.getD_eq_getElem _ _ (by rw [List.length_map, List.length_range]; exact hk),
    List.getElem_map, List.getElem_range]

theorem badInsns_getD_zero : badInsns.getD 0 0 = LOP_JUMP ||| (10922 <<< 16) := rfl

theorem badInsns_op_jump {p : Nat} (h1 : 1 ≤ p) (h2 : p < 10924) :
    LUAU_INSN_OP (badInsns.getD p 0) = LOP_JUMP := by
  rcases Nat.lt_or_ge p 2 with hp | hp
  · have hp1 : p = 1 := by omega
    subst hp1
    decide
  · rw [badInsns]
    have hsplit : ((LOP_JUMP ||| (10922 <<< 16)) :: LOP_JUMP ::
        ((List.range 10922).map (fun _ => LOP_JUMP ||| (20000 <<< 16)) ++
          List.replicate 29079 LOP_LOADNIL)).getD p 0
        = ((List.range 10922).map (fun _ => LOP_JUMP ||| (20000 <<< 16)) ++
          List.replicate 29079 LOP_LOADNIL).getD (p - 2) 0 := by
      rcases p with _ | _ | q
      · omega
      · omega
      · rw [List.getD_cons_succ, List.getD_cons_succ]
        congr 1
    rw [hsplit]
    have hlt : p - 2 < 10922 := by omega
    rw [List.getD_append _ _ _ _
      (by rw [List.length_map, List.length_range]; exact hlt)]
    rw [getD_map_range _ _ hlt]
    decide

theorem badInsns_getD_loadnil {p : Nat} (h1 : 10924 ≤ p) (h2 : p < 40003) :
    badInsns.getD p 0 = LOP_LOADNIL := by
  rw [badInsns]
  have hsplit : ((LOP_JUMP ||| (10922 <<< 16)) :: LOP_JUMP ::
      ((List.range 10922).map (fun _ => LOP_JUMP ||| (20000 <<< 16)) ++
        List.replicate 29079 LOP_LOADNIL)).getD p 0
      = ((List.range 10922).map (fun _ => LOP_JUMP ||| (20000 <<< 16)) ++
        List.replicate 29079 LOP_LOADNIL).getD (p - 2) 0 := by
    rcases p with _ | _ | q
    · omega
    · omega
    · rw [List.getD_cons_succ, List.getD_cons_succ]
      congr 1
  rw [hsplit]
  rw [List.getD_append_right _ _ _ _
    (by rw [List.length_map, List.length_range]; omega)]
  have hidx : p - 2 - ((List.range 10922).map
      (fun _ => LOP_JUMP ||| (20000 <<< 16))).length = p - 10924 := by
    rw [List.length_map, List.length_range]
    omega
  rw [hidx]
  rw [List.getD_eq_getElem _ _ (by rw [List.length_replicate]; omega)]
  rw [List.getElem_replicate]

theorem badJumps_getD_src {p : Nat} (h1 : 1 ≤ p) (h2 : p < 10924) :
    (badJumps.getD p ⟨0, 0⟩).source = p ∧
    10922 < |((badJumps.getD p ⟨0, 0⟩).target : Int) -
      ((badJumps.getD p ⟨0, 0⟩).source : Int) - 1| := by
  rcases Nat.lt_or_ge p 2 with hp | hp
  · have hp1 : p = 1 := by omega
    subst hp1
    constructor
    · rfl
    · decide
  · have hsplit : badJumps.getD p ⟨0, 0⟩
        = ((List.range 10922).map (fun k => (⟨k + 2, k + 20003⟩ : Jump))).getD (p - 2) ⟨0, 0⟩ := by
      rw [badJumps]
      rcases p with _ | _ | q
      · omega
      · omega
      · rw [List.getD_cons_succ, List.getD_cons_succ]
        congr 1
    rw [hsplit, getD_map_range _ _ (show p - 2 < 10922 by omega)]
    constructor
    · show p - 2 + 2 = p
      omega
    · show (10922 : Int) < |((p - 2 + 20003 : Nat) : Int) - ((p - 2 + 2 : Nat) : Int) - 1|
      have he : ((p - 2 + 20003 : Nat) : Int) - ((p - 2 + 2 : Nat) : Int) - 1 = 20000 := by
        push_cast
        omega
      rw [he]
      decide

theorem badJumps_tail_sources :
    ∀ j ∈ (⟨1, 40002⟩ : Jump) ::
      (List.range 10922).map (fun k => (⟨k + 2, k + 20003⟩ : Jump)),
      1 ≤ j.source ∧ j.source ≤ 10923 := by
  intro j hj
  rcases List.mem_cons.mp hj with hj1 | hj2
  · subst hj1
    exact ⟨by norm_num, by norm_num⟩
  · obtain ⟨k, hk, hkj⟩ := List.mem_map.mp hj2
    have := List.mem_range.mp hk
    subst hkj
    exact ⟨by show 1 ≤ k + 2; omega, by show k + 2 ≤ 10923; omega⟩

theorem badJumps_pairwise :
    badJumps.Pairwise (fun a b => a.source < b.source) := by
  rw [badJumps]
  refine List.Pairwise.cons ?_ (List.Pairwise.cons ?_ ?_)
  · intro j hj
    have h := badJumps_tail_sources j hj
    show 0 < j.source
    omega
  · intro j hj
    obtain ⟨k, hk, hkj⟩ := List.mem_map.mp hj
    subst hkj
    show 1 < k + 2
    omega
  · rw [List.pairwise_map]
    have hr := List.pairwise_lt_range 10922
    exact hr.imp (fun h => by show _ + 2 < _ + 2; omega)

theorem insertJump_lt (j : Jump) (k : Jump) (rest : List Jump)
    (h : j.source < k.source) : insertJump j (k :: rest) = j :: k :: rest := by
  rw [insertJump, if_pos h]

theorem sortJumps_sorted_id :
    ∀ (l : List Jump), l.Pairwise (fun a b => a.source < b.source) →
      sortJumps l = l := by
  intro l
  induction l with
  | nil => intro _; rfl
  | cons j rest ih =>
    intro hp
    rw [sortJumps, ih (List.pairwise_cons.mp hp).2]
    cases rest with
    | nil => rfl
    | cons k rest' =>
      exact insertJump_lt j k rest'
        ((List.pairwise_cons.mp hp).1 k (List.mem_cons_self k rest'))

/-- One-step unfolding of the first `expandJumps` pass, with the state
fields spelled out. -/
theorem expandPass1_step (insns : List Nat) (lines : List Int) (jumps : List Jump)
    (i cj : Nat) (ni : List Nat) (nl : List Int) (rm : List Nat) (fuel : Nat) :
    expandPass1 insns lines jumps ⟨i, cj, ni, nl, rm⟩ (fuel + 1) =
      if i < insns.length then
        expandPass1 insns lines jumps
          (copyWords insns lines (getOpLength (LUAU_INSN_OP (insns.getD i 0)))
            ⟨i,
             if cj < jumps.length ∧ (jumps.getD cj ⟨0, 0⟩).source = i then cj + 1 else cj,
             if (cj < jumps.length ∧ (jumps.getD cj ⟨0, 0⟩).source = i) ∧
                 |((jumps.getD cj ⟨0, 0⟩).target : Int) -
                   ((jumps.getD cj ⟨0, 0⟩).source : Int) - 1| > kMaxJumpDistanceConservative
               then ni ++ [LOP_JUMP ||| (1 <<< 16), LOP_JUMPX] else ni,
             if (cj < jumps.length ∧ (jumps.getD cj ⟨0, 0⟩).source = i) ∧
                 |((jumps.getD cj ⟨0, 0⟩).target : Int) -
                   ((jumps.getD cj ⟨0, 0⟩).source : Int) - 1| > kMaxJumpDistanceConservative
               then nl ++ [lines.getD i 0, lines.getD i 0] else nl,
             rm⟩)
          fuel
      else ⟨i, cj, ni, nl, rm⟩ := rfl

/-- Copying a single (auxiliary-free) instruction word. -/
theorem copyWords_one (insns : List Nat) (lines : List Int)
    (i cj : Nat) (ni : List Nat) (nl : List Int) (rm : List Nat) :
    copyWords insns lines 1 ⟨i, cj, ni, nl, rm⟩ =
      ⟨i + 1, cj, ni ++ [insns.getD i 0], nl ++ [lines.getD i 0], rm.set i ni.length⟩ := rfl

/-- Every instruction of the counterexample stream is one word long. -/
theorem badInsns_oplen {p : Nat} (h1 : 1 ≤ p) (h2 : p < 40003) :
    getOpLength (LUAU_INSN_OP (badInsns.getD p 0)) = 1 := by
  rcases Nat.lt_or_ge p 10924 with hp | hp
  · rw [badInsns_op_jump h1 hp]
    decide
  · rw [badInsns_getD_loadnil hp h2]
    decide

/-- Pass 1 over the trailing `LOADNIL` block: no jump records are hit any
more, every word is copied verbatim, and the remap entries below 10924
are left alone. -/
theorem expandC : ∀ (fuel : Nat) (i : Nat) (ni : List Nat) (nl : List Int)
    (rm : List Nat),
    10924 ≤ i → i ≤ 40003 → 0 < ni.length → 40003 - i < fuel →
    ((expandPass1 badInsns badLines badJumps ⟨i, 10924, ni, nl, rm⟩ fuel).newinsns.length
        = ni.length + (40003 - i) ∧
     (expandPass1 badInsns badLines badJumps ⟨i, 10924, ni, nl, rm⟩ fuel).newinsns.getD 0 0
        = ni.getD 0 0 ∧
     ∀ q, q < 10924 →
       (expandPass1 badInsns badLines badJumps ⟨i, 10924, ni, nl, rm⟩ fuel).remap.getD q 0
          = rm.getD q 0) := by
  intro fuel
  induction fuel with
  | zero =>
    intro i ni nl rm _ _ _ hf
    exact absurd hf (Nat.not_lt_zero _)
  | succ fuel ih =>
    intro i ni nl rm hi1 hi2 hni hf
    rcases Nat.lt_or_ge i 40003 with hlt | hge
    · rw [expandPass1_step, if_pos (show i < badInsns.length by
        rw [badInsns_length]; exact hlt)]
      have hhit : ¬(10924 < badJumps.length ∧ (badJumps.getD 10924 ⟨0, 0⟩).source = i) := by
        rw [badJumps_length]
        rintro ⟨hc, -⟩
        omega
      rw [if_neg hhit, if_neg (fun hc => hhit hc.1), if_neg (fun hc => hhit hc.1)]
      rw [badInsns_oplen (by omega) (by omega), copyWords_one]
      obtain ⟨h1, h2, h3⟩ := ih (i + 1) (ni ++ [badInsns.getD i 0])
        (nl ++ [badLines.getD i 0]) (rm.set i ni.length)
        (by omega) (by omega) (by rw [List.length_append]; omega) (by omega)
      refine ⟨?_, ?_, ?_⟩
      · rw [h1, List.length_append]
        simp only [List.length_cons, List.length_nil]
        omega
      · rw [h2, List.getD_append _ _ _ _ hni]
      · intro q hq
        rw [h3 q hq, getD_set_ne (by omega)]
    · rw [expandPass1_step, if_neg (show ¬i < badInsns.length by
        rw [badInsns_length]; omega)]
      refine ⟨?_, rfl, fun q hq => rfl⟩
      show ni.length = ni.length + (40003 - i)
      omega

/-- Pass 1 over the block of over-threshold one-word jumps at positions
`1 .. 10923`: every one of them gets a two-word trampoline, so position
`p` is remapped to `3 * p`. -/
theorem expandB : ∀ (fuel : Nat) (i : Nat) (ni : List Nat) (nl : List Int)
    (rm : List Nat),
    1 ≤ i → i ≤ 10924 →
    ni.length = 3 * i - 2 →
    rm.length = 40003 →
    40003 - i < fuel →
    ((expandPass1 badInsns badLines badJumps ⟨i, i, ni, nl, rm⟩ fuel).newinsns.length
        = 61849 ∧
     (expandPass1 badInsns badLines badJumps ⟨i, i, ni, nl, rm⟩ fuel).newinsns.getD 0 0
        = ni.getD 0 0 ∧
     (∀ q, q < i →
        (expandPass1 badInsns badLines badJumps ⟨i, i, ni, nl, rm⟩ fuel).remap.getD q 0
          = rm.getD q 0) ∧
     ∀ p, i ≤ p → p ≤ 10923 →
       (expandPass1 badInsns badLines badJumps ⟨i, i, ni, nl, rm⟩ fuel).remap.getD p 0
          = 3 * p) := by
  intro fuel
  induction fuel with
  | zero =>
    intro i ni nl rm _ _ _ _ hf
    exact absurd hf (Nat.not_lt_zero _)
  | succ fuel ih =>
    intro i ni nl rm hi1 hi2 hni hrm hf
    rcases Nat.lt_or_ge i 10924 with hlt | hge
    · rw [expandPass1_step, if_pos (show i < badInsns.length by
        rw [badInsns_length]; omega)]
      have hsrc := badJumps_getD_src hi1 hlt
      have hhit : i < badJumps.length ∧ (badJumps.getD i ⟨0, 0⟩).source = i := by
        rw [badJumps_length]
        exact ⟨by omega, hsrc.1⟩
      have htr : (i < badJumps.length ∧ (badJumps.getD i ⟨0, 0⟩).source = i) ∧
          |((badJumps.getD i ⟨0, 0⟩).target : Int) -
            ((badJumps.getD i ⟨0, 0⟩).source : Int) - 1| > kMaxJumpDistanceConservative := by
        refine ⟨hhit, ?_⟩
        rw [kMaxJumpDistanceConservative]
        exact hsrc.2
      rw [if_pos hhit, if_pos htr, if_pos htr]
      rw [badInsns_oplen (by omega) (by omega), copyWords_one]
      have hlen2 : (ni ++ [LOP_JUMP ||| (1 <<< 16), LOP_JUMPX]).length = 3 * i := by
        rw [List.length_append]
        simp only [List.length_cons, List.length_nil]
        omega
      obtain ⟨h1, h2, h3, h4⟩ := ih (i + 1)
        ((ni ++ [LOP_JUMP ||| (1 <<< 16), LOP_JUMPX]) ++ [badInsns.getD i 0])
        ((nl ++ [badLines.getD i 0, badLines.getD i 0]) ++ [badLines.getD i 0])
        (rm.set i (ni ++ [LOP_JUMP ||| (1 <<< 16), LOP_JUMPX]).length)
        (by omega) (by omega)
        (by rw [List.length_append, hlen2]; simp only [List.length_cons, List.length_nil]; omega)
        (by rw [List.length_set]; exact hrm)
        (by omega)
      refine ⟨h1, ?_, ?_, ?_⟩
      · rw [h2, List.getD_append _ _ _ _ (by rw [hlen2]; omega),
          List.getD_append _ _ _ _ (by omega)]
      · intro q hq
        rw [h3 q (by omega), getD_set_ne (by omega)]
      · intro p hp1 hp2
        rcases Nat.eq_or_lt_of_le hp1 with hpe | hpl
        · rw [← hpe]
          rw [h3 i (by omega), getD_set_self (by rw [hrm]; omega), hlen2]
        · exact h4 p (by omega) hp2
    · have h10924 : i = 10924 := by omega
      subst h10924
      obtain ⟨h1, h2, h3⟩ := expandC (fuel + 1) 10924 ni nl rm
        (by omega) (by omega) (by omega) (by omega)
      refine ⟨?_, h2, ?_, ?_⟩
      · rw [h1]
        omega
      · intro q hq
        exact h3 q hq
      · intro p hp1 hp2
        omega

/-- The first pass over the counterexample function: the `JUMP` at
position 0 is copied without a trampoline (its offset is exactly at the
conservative threshold), the 10923 following words each grow by two
trampoline words, and the remap table sends 0 to 0 and `p` to `3 * p`
for the whole trampolined block. -/
theorem pass1_facts :
    ((expandPass1 badInsns badLines badJumps
        ⟨0, 0, [], [], List.replicate 40003 0⟩ 40004).newinsns.length = 61849 ∧
     (expandPass1 badInsns badLines badJumps
        ⟨0, 0, [], [], List.replicate 40003 0⟩ 40004).newinsns.getD 0 0
        = LOP_JUMP ||| (10922 <<< 16) ∧
     (expandPass1 badInsns badLines badJumps
        ⟨0, 0, [], [], List.replicate 40003 0⟩ 40004).remap.getD 0 0 = 0 ∧
     ∀ p, 1 ≤ p → p ≤ 10923 →
       (expandPass1 badInsns badLines badJumps
          ⟨0, 0, [], [], List.replicate 40003 0⟩ 40004).remap.getD p 0 = 3 * p) := by
  rw [show (40004 : Nat) = 40003 + 1 from rfl, expandPass1_step]
  rw [if_pos (show (0 : Nat) < badInsns.length by rw [badInsns_length]; omega)]
  have hhit : (0 : Nat) < badJumps.length ∧ (badJumps.getD 0 ⟨0, 0⟩).source = 0 := by
    rw [badJumps_length]
    exact ⟨by omega, rfl⟩
  have htr : ¬(((0 : Nat) < badJumps.length ∧ (badJumps.getD 0 ⟨0, 0⟩).source = 0) ∧
      |((badJumps.getD 0 ⟨0, 0⟩).target : Int) -
        ((badJumps.getD 0 ⟨0, 0⟩).source : Int) - 1| > kMaxJumpDistanceConservative) := by
    rintro ⟨-, habs⟩
    exact absurd habs (by decide)
  rw [if_pos hhit, if_neg htr, if_neg htr]
  rw [show getOpLength (LUAU_INSN_OP (badInsns.getD 0 0)) = 1 from rfl, copyWords_one]
  obtain ⟨h1, h2, h3, h4⟩ := expandB 40003 (0 + 1)
    ([] ++ [badInsns.getD 0 0]) ([] ++ [badLines.getD 0 0])
    ((List.replicate 40003 0).set 0 ([] : List Nat).length)
    (by omega) (by omega)
    (by rw [List.nil_append, List.length_cons, List.length_nil])
    (by rw [List.length_set, List.length_replicate])
    (by omega)
  refine ⟨h1, ?_, ?_, ?_⟩
  · rw [h2]
    rfl
  · rw [h3 0 (by omega), getD_set_self (by rw [List.length_replicate]; omega)]
    rfl
  · intro p hp1 hp2
    exact h4 p hp1 hp2

/-- `expandJumps` repatching never touches the remapped position of the
stream's first word when the record's own remapped position is at least 2:
both the trampoline writes and the direct repatch write at the record's
remapped indices. -/
theorem expandPatch_getD_zero (newinsns remap : List Nat) (j : Jump)
    (h2 : 2 ≤ remap.getD j.source 0) :
    (expandPatch newinsns remap j).getD 0 0 = newinsns.getD 0 0 := by
  rw [expandPatch]
  split
  · rw [getD_set_ne (by omega), getD_set_ne (by omega)]
  · rw [getD_set_ne (by omega)]

theorem expandPatch_length (newinsns remap : List Nat) (j : Jump) :
    (expandPatch newinsns remap j).length = newinsns.length := by
  rw [expandPatch]
  split
  · rw [List.length_set, List.length_set]
  · rw [List.length_set]

/-- The direct-repatch branch of `expandPatch`, for a record whose
original offset does not exceed the conservative threshold.  This is the
branch carrying the `int16_t(newoffset) == newoffset` assertion. -/
theorem expandPatch_short (newinsns remap : List Nat) (src tgt : Nat)
    (h : ¬|((tgt : Nat) : Int) - ((src : Nat) : Int) - 1| > kMaxJumpDistanceConservative) :
    expandPatch newinsns remap ⟨src, tgt⟩ =
      newinsns.set (remap.getD src 0)
        ((newinsns.getD (remap.getD src 0) 0 &&& 65535) |||
          (u16 ((remap.getD tgt 0 : Int) - (remap.getD src 0 : Int) - 1) <<< 16)) := by
  rw [expandPatch]
  rw [if_neg (show ¬|(((⟨src, tgt⟩ : Jump).target : Nat) : Int) -
    (((⟨src, tgt⟩ : Jump).source : Nat) : Int) - 1| > kMaxJumpDistanceConservative from h)]

/-- Folding the remaining repatches preserves the first word and the
stream length, as long as each record's remapped position is ≥ 2. -/
theorem foldPatch_preserve (remap : List Nat) (l : List Jump) :
    ∀ acc : List Nat,
    (∀ j ∈ l, 2 ≤ remap.getD j.source 0) →
    ((l.foldl (fun acc j => expandPatch acc remap j) acc).getD 0 0 = acc.getD 0 0 ∧
     (l.foldl (fun acc j => expandPatch acc remap j) acc).length = acc.length) := by
  induction l with
  | nil =>
    intro acc _
    exact ⟨rfl, rfl⟩
  | cons j rest ih =>
    intro acc hall
    rw [List.foldl_cons]
    obtain ⟨g1, g2⟩ := ih (expandPatch acc remap j)
      (fun k hk => hall k (List.mem_cons_of_mem j hk))
    have hj := hall j (List.mem_cons_self j rest)
    exact ⟨by rw [g1, expandPatch_getD_zero acc remap j hj],
           by rw [g2, expandPatch_length acc remap j]⟩

/-- Unfolding `expandJumps` for a builder with the long-jump flag set. -/
theorem expandJumps_insns_of_long (s : Builder) (h : s.hasLongJumps = true) :
    (expandJumps s).insns =
      (sortJumps s.jumps).foldl
        (fun acc j => expandPatch acc
          (expandPass1 s.insns s.lines (sortJumps s.jumps)
            ⟨0, 0, [], [], List.replicate s.insns.length 0⟩ (s.insns.length + 1)).remap j)
        (expandPass1 s.insns s.lines (sortJumps s.jumps)
          ⟨0, 0, [], [], List.replicate s.insns.length 0⟩ (s.insns.length + 1)).newinsns := by
  rw [expandJumps, h]
  rfl

/-- After both passes, the counterexample's first word holds the
truncated repatch of the threshold jump. -/
theorem expandJumps_result :
    (expandJumps badState).insns.getD 0 0 = 2147483671 ∧
    (expandJumps badState).insns.length = 61849 := by
  obtain ⟨hL, hI0, hR0, hRp⟩ := pass1_facts
  have hR1 : (expandPass1 badInsns badLines badJumps
      ⟨0, 0, [], [], List.replicate 40003 0⟩ 40004).remap.getD 10923 0 = 32769 := by
    have h := hRp 10923 (by omega) (by omega)
    omega
  rw [expandJumps_insns_of_long badState rfl]
  rw [show badState.insns = badInsns from rfl, show badState.lines = badLines from rfl,
    show badState.jumps = badJumps from rfl,
    sortJumps_sorted_id badJumps badJumps_pairwise, badInsns_length,
    show (40003 + 1 : Nat) = 40004 from rfl]
  have hfold : ∀ (f : List Nat → Jump → List Nat) (a : List Nat),
      badJumps.foldl f a =
        ((⟨1, 40002⟩ : Jump) ::
          (List.range 10922).map (fun k => (⟨k + 2, k + 20003⟩ : Jump))).foldl f
          (f a ⟨0, 10923⟩) := by
    intro f a
    rw [show badJumps = (⟨0, 10923⟩ : Jump) :: (⟨1, 40002⟩ : Jump) ::
      (List.range 10922).map (fun k => (⟨k + 2, k + 20003⟩ : Jump)) from rfl]
    rw [List.foldl_cons]
  rw [hfold]
  have htail : ∀ j ∈ (⟨1, 40002⟩ : Jump) ::
      (List.range 10922).map (fun k => (⟨k + 2, k + 20003⟩ : Jump)),
      2 ≤ (expandPass1 badInsns badLines badJumps
        ⟨0, 0, [], [], List.replicate 40003 0⟩ 40004).remap.getD j.source 0 := by
    intro j hj
    obtain ⟨hs1, hs2⟩ := badJumps_tail_sources j hj
    rw [hRp j.source hs1 hs2]
    omega
  obtain ⟨g1, g2⟩ := foldPatch_preserve _ _ _ htail
  refine ⟨?_, ?_⟩
  · rw [g1, expandPatch_short _ _ 0 10923 (by decide), hR0, hR1, hI0]
    rw [getD_set_self (by rw [hL]; omega)]
    decide
  · rw [g2, expandPatch_length]
    exact hL

/-- **C2.** The claim states that the conservative threshold
`kMaxJumpDistanceConservative = 32767/3` guarantees the repatch assertion
`int16_t(newoffset) == newoffset` in `expandJumps` can never fail.  This
is a genuine code bug: for the 40003-instruction function `badState`
(a `JUMP` at position 0 with offset exactly 10922, followed by 10923
over-threshold one-word jumps and `LOADNIL` filler), every word between
the first jump and its target gains a two-word trampoline, so its
remapped offset is `remap[10923] - remap[0] - 1 = 3*10922 + 2 = 32768`,
which fails `int16Fits`; the write then truncates the D field to
`-32768` (instruction word `2147483671`), while the opcode stays `JUMP`
and the expanded stream has 61849 words. -/
theorem expandJumps_assert_violation :
    int16Fits (((expandPass1 badState.insns badState.lines (sortJumps badState.jumps)
          ⟨0, 0, [], [], List.replicate badState.insns.length 0⟩
          (badState.insns.length + 1)).remap.getD 10923 0 : Int) -
        ((expandPass1 badState.insns badState.lines (sortJumps badState.jumps)
          ⟨0, 0, [], [], List.replicate badState.insns.length 0⟩
          (badState.insns.length + 1)).remap.getD 0 0 : Int) - 1) = false ∧
    LUAU_INSN_OP ((expandJumps badState).insns.getD 0 0) = LOP_JUMP ∧
    LUAU_INSN_D ((expandJumps badState).insns.getD 0 0) = -32768 ∧
    (expandJumps badState).insns.length = 61849 := by
  obtain ⟨hv, hlen⟩ := expandJumps_result
  obtain ⟨hL, hI0, hR0, hRp⟩ := pass1_facts
  refine ⟨?_, ?_, ?_, hlen⟩
  · rw [show badState.insns = badInsns from rfl, show badState.lines = badLines from rfl,
      show badState.jumps = badJumps from rfl,
      sortJumps_sorted_id badJumps badJumps_pairwise, badInsns_length,
      show (40003 + 1 : Nat) = 40004 from rfl]
    have hR1 : (expandPass1 badInsns badLines badJumps
        ⟨0, 0, [], [], List.replicate 40003 0⟩ 40004).remap.getD 10923 0 = 32769 := by
      have h := hRp 10923 (by omega) (by omega)
      omega
    rw [hR0, hR1]
    decide
  · rw [hv]
    decide
  · rw [hv]
    decide

end LuauBB
